import Mathlib

/-!
# C++ metrics parser (`plugins/cpp_metrics/parser/src/cppmetricsparser.cpp`)

A shallow embedding of `CppMetricsParser`: the database tables and views the
parser reads are lists of rows, the unordered sets and maps it keeps are
duplicate-free lists, and every pass returns the metric records it persists.

Conventions of the embedding.

* A `double` is a `Dbl`: an exact rational, one of the two infinities, or NaN.
  Rounding is not modelled, and the sign of zero is not tracked (every
  operand of the parser is a converted unsigned counter, so a negative zero
  never arises).
* `std::size_t`, `std::uint64_t` hashes, ids, lines and columns are `Nat`; so
  is the `int` counter `relationsInModule`, which starts at 0 and is only
  incremented. The 32-bit `uint numberOfTypesInModule` is reduced modulo 2^32,
  and the `unsigned int` sums of `typeMcCabe` go through the conversion from
  `double`.
* An unordered set or map is a duplicate-free list in insertion order, a
  `std::map` a list in ascending key order, a query result the rows of the
  table that pass the condition, in table order.
* `query_one` on a column that is not a key may find several rows, `map::at`
  may miss its key, a null query result may be dereferenced, an element may be
  erased from the map that a range-for is walking, and a conversion from
  `double` to `unsigned int` may be out of range; these become `none`.
  A lookup by primary key returns the first row with the key.
-/

namespace CppMetrics

/-! ## Doubles -/

/-- Values of the C++ type `double`, up to rounding. -/
inductive Dbl where
  | fin (q : ℚ)
  | posInf
  | negInf
  | nan
deriving DecidableEq

namespace Dbl

/-- Conversion of an unsigned integer to `double`. -/
def ofNat (n : Nat) : Dbl := fin (n : ℚ)

/-- IEEE addition on the value domain. -/
def add : Dbl → Dbl → Dbl
  | fin a, fin b => fin (a + b)
  | fin _, posInf => posInf
  | fin _, negInf => negInf
  | posInf, fin _ => posInf
  | posInf, posInf => posInf
  | negInf, fin _ => negInf
  | negInf, negInf => negInf
  | _, _ => nan

/-- IEEE negation. -/
def neg : Dbl → Dbl
  | fin a => fin (-a)
  | posInf => negInf
  | negInf => posInf
  | nan => nan

/-- IEEE subtraction. -/
def sub (x y : Dbl) : Dbl := add x (neg y)

/-- Sign-directed infinity: the result of an infinite product or quotient. -/
def infOfSign (positive : Bool) : Dbl := if positive then posInf else negInf

/-- IEEE multiplication. -/
def mul : Dbl → Dbl → Dbl
  | fin a, fin b => fin (a * b)
  | fin a, posInf => if a = 0 then nan else infOfSign (decide (0 < a))
  | fin a, negInf => if a = 0 then nan else infOfSign (decide (a < 0))
  | posInf, fin b => if b = 0 then nan else infOfSign (decide (0 < b))
  | negInf, fin b => if b = 0 then nan else infOfSign (decide (b < 0))
  | posInf, posInf => posInf
  | negInf, negInf => posInf
  | posInf, negInf => negInf
  | negInf, posInf => negInf
  | _, _ => nan

/-- IEEE division: a finite non-zero value over zero is an infinity, zero over
zero is NaN. -/
def div : Dbl → Dbl → Dbl
  | fin a, fin b =>
      if b = 0 then (if a = 0 then nan else infOfSign (decide (0 < a)))
      else fin (a / b)
  | fin _, posInf => fin 0
  | fin _, negInf => fin 0
  | posInf, fin b => infOfSign (decide (0 ≤ b))
  | negInf, fin b => infOfSign (decide (b < 0))
  | _, _ => nan

end Dbl

/-! ## Metric records -/

/-- Enumeration `model::CppAstNodeMetrics::Type`. -/
inductive AstMetricType where
  | PARAMETER_COUNT
  | MCCABE_FUNCTION
  | MCCABE_TYPE
  | BUMPY_ROAD
  | LACK_OF_COHESION
  | LACK_OF_COHESION_HS
deriving DecidableEq

/-- Enumeration `model::CppFileMetrics::Type`. -/
inductive FileMetricType where
  | RELATIONAL_COHESION
deriving DecidableEq

/-- Row of `model::CppAstNodeMetrics` (the generated row id is left out). -/
structure CppAstNodeMetrics where
  astNodeId : Nat
  type : AstMetricType
  value : Dbl
deriving DecidableEq

/-- Row of `model::CppFileMetrics` (the generated row id is left out). -/
structure CppFileMetrics where
  file : Nat
  type : FileMetricType
  value : Dbl
deriving DecidableEq

/-- Insertion into a `std::unordered_set`, kept as a duplicate-free list. -/
def setInsert {α : Type} [DecidableEq α] (s : List α) (a : α) : List α :=
  if a ∈ s then s else s ++ [a]

/-! ## Bumpy road -/

/-- Row of the view `model::CppFunctionBumpyRoad`. -/
structure CppFunctionBumpyRoad where
  astNodeId : Nat
  bumpiness : Nat
  statementCount : Nat
deriving DecidableEq

/-- Record built in the loop body of `functionBumpyRoad`. -/
def bumpyRoadMetrics (function : CppFunctionBumpyRoad) : CppAstNodeMetrics :=
  let dB := Dbl.ofNat function.bumpiness
  let dC := Dbl.ofNat function.statementCount
  let empty := function.statementCount == 0
  { astNodeId := function.astNodeId
    type := AstMetricType.BUMPY_ROAD
    value := if empty then Dbl.fin 1 else Dbl.div dB dC }

/-- The worker `functionBumpyRoad` hands to `parallelCalcMetric`: one
transaction that persists a record for each function of the partition. -/
def functionBumpyRoad (tasks : List CppFunctionBumpyRoad)
    (store : List CppAstNodeMetrics) : List CppAstNodeMetrics :=
  tasks.foldl (fun st function => st ++ [bumpyRoadMetrics function]) store

/-! ## Lack of cohesion -/

/-- A source position, `model::Position`. -/
structure Position where
  line : Nat
  column : Nat
deriving DecidableEq

/-- Modelled from the spec: `operator<` of `model::Position` (its header is not
part of the sources); positions are ordered by line, then by column. -/
def Position.lt (a b : Position) : Bool :=
  decide (a.line < b.line) || (a.line == b.line && decide (a.column < b.column))

/-- Row of the view `model::CohesionCppRecordView`: a type to measure. -/
structure CohesionCppRecordView where
  entityHash : Nat
  astNodeId : Nat
deriving DecidableEq

/-- Row of the view `model::CohesionCppFieldView`, with the member-type column
the query filters on. -/
structure CohesionCppFieldView where
  typeHash : Nat
  entityHash : Nat
deriving DecidableEq

/-- Row of the view `model::CohesionCppMethodView`, with the member-type column
the query filters on. -/
structure CohesionCppMethodView where
  typeHash : Nat
  filePath : String
  startLine : Nat
  startColumn : Nat
  endLine : Nat
  endColumn : Nat
deriving DecidableEq

/-- Row of the view `model::CohesionCppAstNodeView`: an AST node that reads or
writes a variable. -/
structure CohesionCppAstNodeView where
  entityHash : Nat
  filePath : String
  startLine : Nat
  startColumn : Nat
  endLine : Nat
  endColumn : Nat
deriving DecidableEq

/-- The tables `lackOfCohesion` queries. -/
structure CohesionTables where
  fields : List CohesionCppFieldView
  methods : List CohesionCppMethodView
  nodes : List CohesionCppAstNodeView

/-- The condition of the AST node query of `lackOfCohesion`, as written in the
source, for the method `method` with positions `start` and `stop`. -/
def nodeQuery (method : CohesionCppMethodView) (start stop : Position)
    (node : CohesionCppAstNodeView) : Bool :=
  node.filePath == method.filePath &&
  (decide (node.startLine ≥ start.line)
    || (node.startLine == start.line && decide (node.startColumn ≥ start.column))) &&
  (decide (node.endLine ≤ stop.line)
    || (node.endLine == stop.line && decide (node.endColumn ≤ stop.column)))

/-- The set `usedFields` of one method: the inner loop of `lackOfCohesion`. -/
def usedFields (db : CohesionTables) (fieldHashes : List Nat)
    (method : CohesionCppMethodView) (start stop : Position) : List Nat :=
  (db.nodes.filter (nodeQuery method start stop)).foldl
    (fun used node =>
      if node.entityHash ∈ fieldHashes then setInsert used node.entityHash else used)
    []

/-- The set `fieldHashes` of a type: the first loop of `lackOfCohesion`. -/
def fieldHashesOf (db : CohesionTables) (type : CohesionCppRecordView) : List Nat :=
  (db.fields.filter (fun field => field.typeHash == type.entityHash)).foldl
    (fun hashes field => setInsert hashes field.entityHash) []

/-- The pair `(methodCount, totalCohesion)` of a type: the method loop of
`lackOfCohesion`. -/
def methodLoop (db : CohesionTables) (type : CohesionCppRecordView)
    (fieldHashes : List Nat) : Nat × Nat :=
  (db.methods.filter (fun method => method.typeHash == type.entityHash)).foldl
    (fun (acc : Nat × Nat) method =>
      let start : Position := ⟨method.startLine, method.startColumn⟩
      let stop : Position := ⟨method.endLine, method.endColumn⟩
      if Position.lt start stop then
        (acc.1 + 1, acc.2 + (usedFields db fieldHashes method start stop).length)
      else acc)
    (0, 0)

/-- The two records `lackOfCohesion` persists for one type, in the order the
source persists them. -/
def lackOfCohesionType (db : CohesionTables) (type : CohesionCppRecordView) :
    List CppAstNodeMetrics :=
  let fieldHashes := fieldHashesOf db type
  let fieldCount := fieldHashes.length
  let counts := methodLoop db type fieldHashes
  let methodCount := counts.1
  let totalCohesion := counts.2
  let dF := Dbl.ofNat fieldCount
  let dM := Dbl.ofNat methodCount
  let dC := Dbl.ofNat totalCohesion
  let trivial := fieldCount == 0 || methodCount == 0
  let singular := methodCount == 1
  let lcm : CppAstNodeMetrics :=
    { astNodeId := type.astNodeId
      type := AstMetricType.LACK_OF_COHESION
      value := if trivial then Dbl.fin 0
               else Dbl.sub (Dbl.fin 1) (Dbl.div dC (Dbl.mul dM dF)) }
  let lcm_hs : CppAstNodeMetrics :=
    { astNodeId := type.astNodeId
      type := AstMetricType.LACK_OF_COHESION_HS
      value := if trivial then Dbl.fin 0 else if singular then Dbl.nan
               else Dbl.div (Dbl.sub dM (Dbl.div dC dF)) (Dbl.sub dM (Dbl.fin 1)) }
  [lcm, lcm_hs]

/-- The worker `lackOfCohesion` hands to `parallelCalcMetric`: one transaction
that persists the two records of each type of the partition. -/
def lackOfCohesion (db : CohesionTables) (tasks : List CohesionCppRecordView)
    (store : List CppAstNodeMetrics) : List CppAstNodeMetrics :=
  tasks.foldl (fun st type => st ++ lackOfCohesionType db type) store

/-! ### The quantities F, M and C of a type, stated on the tables -/

/-- The fields of a type. -/
def typeFields (db : CohesionTables) (type : CohesionCppRecordView) :
    List CohesionCppFieldView :=
  db.fields.filter (fun field => field.typeHash == type.entityHash)

/-- F: the number of distinct fields of a type. -/
def distinctFieldCount (db : CohesionTables) (type : CohesionCppRecordView) : Nat :=
  ((typeFields db type).map (fun field => field.entityHash)).toFinset.card

/-- The methods of a type whose start position is strictly before their end
position. -/
def qualifyingMethods (db : CohesionTables) (type : CohesionCppRecordView) :
    List CohesionCppMethodView :=
  (db.methods.filter (fun method => method.typeHash == type.entityHash)).filter
    (fun method =>
      Position.lt ⟨method.startLine, method.startColumn⟩ ⟨method.endLine, method.endColumn⟩)

/-- Position `a` is at or before position `b`, by line and then by column. -/
def Position.le (a b : Position) : Bool := !Position.lt b a

/-- The node lies in the file of the method and within its span, positions
being compared by line and then by column: its range starts at or after
`start` and ends at or before `stop`. -/
def withinSpan (method : CohesionCppMethodView) (start stop : Position)
    (node : CohesionCppAstNodeView) : Bool :=
  node.filePath == method.filePath &&
  Position.le start ⟨node.startLine, node.startColumn⟩ &&
  Position.le ⟨node.endLine, node.endColumn⟩ stop

/-- The distinct fields of the type that a method uses: the hashes of the
type's fields that some AST node lying within the textual span of the method,
in its file, carries. -/
def usedFieldSet (db : CohesionTables) (type : CohesionCppRecordView)
    (method : CohesionCppMethodView) : Finset Nat :=
  ((db.nodes.filter
      (withinSpan method ⟨method.startLine, method.startColumn⟩
        ⟨method.endLine, method.endColumn⟩)).map
    (fun node => node.entityHash)).toFinset ∩
  ((typeFields db type).map (fun field => field.entityHash)).toFinset

/-- C: the sum over the qualifying methods of the number of distinct fields of
the type each one uses. -/
def cohesionSum (db : CohesionTables) (type : CohesionCppRecordView) : Nat :=
  ((qualifyingMethods db type).map (fun method => (usedFieldSet db type method).card)).sum

/-- The hashes of the type's fields carried by the AST nodes that the node
query of the source returns for a method: what the inner loop of
`lackOfCohesion` collects. -/
def queriedFieldSet (db : CohesionTables) (type : CohesionCppRecordView)
    (method : CohesionCppMethodView) : Finset Nat :=
  ((db.nodes.filter
      (nodeQuery method ⟨method.startLine, method.startColumn⟩
        ⟨method.endLine, method.endColumn⟩)).map
    (fun node => node.entityHash)).toFinset ∩
  ((typeFields db type).map (fun field => field.entityHash)).toFinset

/-- The sum over the qualifying methods of the sizes of their queried field
sets: what `totalCohesion` holds after the method loop. -/
def queriedCohesionSum (db : CohesionTables) (type : CohesionCppRecordView) : Nat :=
  ((qualifyingMethods db type).map (fun method => (queriedFieldSet db type method).card)).sum

/-- Every AST node the node query returns for a qualifying method of the type
lies within the span of the method. -/
def queryWithinSpan (db : CohesionTables) (type : CohesionCppRecordView) : Bool :=
  (qualifyingMethods db type).all fun method =>
    db.nodes.all fun node =>
      !nodeQuery method ⟨method.startLine, method.startColumn⟩
          ⟨method.endLine, method.endColumn⟩ node ||
        withinSpan method ⟨method.startLine, method.startColumn⟩
          ⟨method.endLine, method.endColumn⟩ node

/-- A type with no field and one method with a body (lines 1 to 3). -/
def fieldlessTables : CohesionTables :=
  { fields := []
    methods := [⟨7, "a.cpp", 1, 1, 3, 1⟩]
    nodes := [⟨100, "a.cpp", 2, 1, 2, 5⟩] }

/-- A type with two fields and one method with a body, which uses one of
them twice. -/
def singleMethodTables : CohesionTables :=
  { fields := [⟨7, 100⟩, ⟨7, 101⟩]
    methods := [⟨7, "a.cpp", 1, 1, 3, 1⟩, ⟨7, "a.cpp", 5, 1, 5, 1⟩]
    nodes := [⟨100, "a.cpp", 2, 1, 2, 5⟩, ⟨100, "a.cpp", 2, 7, 2, 9⟩, ⟨55, "a.cpp", 2, 0, 2, 1⟩] }

/-! ## Relational cohesion -/

/-- Insertion into a `std::unordered_map` with `insert` or `emplace`: a key
already present keeps its value. -/
def mapInsert {κ ν : Type} [DecidableEq κ] (m : List (κ × ν)) (k : κ) (v : ν) :
    List (κ × ν) :=
  if k ∈ m.map Prod.fst then m else m ++ [(k, v)]

/-- Assignment `m[k] = v` of a `std::unordered_map`: a key already present
takes the new value. -/
def mapAssign {κ ν : Type} [DecidableEq κ] (m : List (κ × ν)) (k : κ) (v : ν) :
    List (κ × ν) :=
  if k ∈ m.map Prod.fst then m.map (fun kv => if kv.1 = k then (k, v) else kv)
  else m ++ [(k, v)]

/-- Lookup `find` / `at` of a map: `none` when the key is missing. -/
def mapFind {κ ν : Type} [DecidableEq κ] (m : List (κ × ν)) (k : κ) : Option ν :=
  (m.find? (fun kv => kv.1 = k)).map Prod.snd

/-- Row of the view `model::RelationalCohesionFileView`, with the file type
column the directory query filters on. -/
structure RelationalCohesionFileView where
  filePath : String
  fileId : Nat
  type : String
deriving DecidableEq

/-- Row of the view `model::RelationalCohesionRecordView`: a type definition and
the file that holds it. -/
structure RelationalCohesionRecordView where
  typeHash : Nat
  filePath : String
deriving DecidableEq

/-- Row of one of the four usage views `checkTypes` is instantiated with
(`RelationalCohesionFunctionView`, `RelationalCohessionFunctionParameterView`,
`RelationalCohessionFunctionLocalView`, `RelationalCohesionVariableView`): the
hash of the type used and the file of the use. -/
structure TypeUsage where
  typeHash : Nat
  filePath : String
deriving DecidableEq

/-- The tables `relationalCohesion` queries, with the two things the source
takes from outside: the `LIKE` operator of the database (`like s pattern`)
and the constant `model::File::DIRECTORY_TYPE`. -/
structure RelationalTables where
  like : String → String → Bool
  DIRECTORY_TYPE : String
  files : List RelationalCohesionFileView
  records : List RelationalCohesionRecordView
  functionView : List TypeUsage
  parameterView : List TypeUsage
  localView : List TypeUsage
  variableView : List TypeUsage

/-- One step of the loop of `checkTypes`, on the pair
`(relationsFoundInFile, relationsInModule)`. The conjuncts are evaluated left
to right: `typeDefinitionPaths.at` is reached only for a type in `typesFound`
and throws (`none`) when the hash is not a key. -/
def checkTypesStep (typesFound : List Nat) (typeDefinitionPaths : List (Nat × String))
    (acc : List (String × Nat) × Nat) (item : TypeUsage) :
    Option (List (String × Nat) × Nat) :=
  if item.typeHash ∈ typesFound then
    match mapFind typeDefinitionPaths item.typeHash with
    | none => none
    | some definitionPath =>
      if definitionPath ≠ item.filePath ∧
          (acc.1.find? (fun pair => pair.1 = item.filePath)).isNone = true ∧
          ((acc.1.filter (fun pair => pair.1 = item.filePath)).all
            (fun pair => !(pair.2 == item.typeHash))) = true
      then some (acc.1 ++ [(item.filePath, item.typeHash)], acc.2 + 1)
      else some acc
  else some acc

/-- `checkTypes<T>` on the rows of `T` whose file path is `LIKE path%`.
`relationsInModule` is a natural number: the `int` of the source starts at 0
and is only incremented. -/
def checkTypes (like : String → String → Bool) (table : List TypeUsage) (path : String)
    (typesFound : List Nat) (typeDefinitionPaths : List (Nat × String))
    (acc : List (String × Nat) × Nat) : Option (List (String × Nat) × Nat) :=
  (table.filter (fun item => like item.filePath (path ++ "%"))).foldlM
    (checkTypesStep typesFound typeDefinitionPaths) acc

/-- The set `modulePaths`: the lines of the module list when the file opens
(`some lines`), else every directory under an input path. -/
def modulePaths (db : RelationalTables) (moduleList : Option (List String))
    (inputPaths : List String) : List String :=
  match moduleList with
  | some lines => lines.foldl setInsert []
  | none =>
    inputPaths.foldl
      (fun paths inputPath =>
        (db.files.filter (fun file =>
            db.like file.filePath (inputPath ++ "%") && file.type == db.DIRECTORY_TYPE)).foldl
          (fun paths file => setInsert paths file.filePath) paths)
      []

/-- The map `moduleIds`: the file id of each module path. -/
def moduleIds (db : RelationalTables) (paths : List String) : List (String × Nat) :=
  paths.foldl
    (fun ids path =>
      (db.files.filter (fun file => file.filePath == path)).foldl
        (fun ids file => mapAssign ids file.filePath file.fileId) ids)
    []

/-- The type definitions of a module: the rows of the record view whose file
path is `LIKE path%`. -/
def moduleRecords (db : RelationalTables) (path : String) :
    List RelationalCohesionRecordView :=
  db.records.filter (fun record => db.like record.filePath (path ++ "%"))

/-- The set `typesFound` of a module. -/
def typesFoundOf (db : RelationalTables) (path : String) : List Nat :=
  (moduleRecords db path).foldl (fun types record => setInsert types record.typeHash) []

/-- The map `typeDefinitionPaths` of a module. -/
def typeDefinitionPathsOf (db : RelationalTables) (path : String) : List (Nat × String) :=
  (moduleRecords db path).foldl
    (fun paths record => mapInsert paths record.typeHash record.filePath) []

/-- The four calls of `checkTypes` for one module, from an empty
`relationsFoundInFile` and `relationsInModule = 0`: return types, parameters,
locals, variables. -/
def moduleRelations (db : RelationalTables) (path : String) :
    Option (List (String × Nat) × Nat) :=
  let typesFound := typesFoundOf db path
  let typeDefinitionPaths := typeDefinitionPathsOf db path
  (checkTypes db.like db.functionView path typesFound typeDefinitionPaths ([], 0)).bind
    fun acc1 =>
  (checkTypes db.like db.parameterView path typesFound typeDefinitionPaths acc1).bind
    fun acc2 =>
  (checkTypes db.like db.localView path typesFound typeDefinitionPaths acc2).bind
    fun acc3 =>
  checkTypes db.like db.variableView path typesFound typeDefinitionPaths acc3

/-- The record of one module: the body of the last loop of
`relationalCohesion`. `numberOfTypesInModule` is a 32-bit `uint`, and
`moduleIds[path]` is 0 for a path with no file row. -/
def relationalCohesionModule (db : RelationalTables) (ids : List (String × Nat))
    (path : String) : Option CppFileMetrics :=
  (moduleRelations db path).map fun acc =>
    let relationsInModule := acc.2
    let numberOfTypesInModule := (typesFoundOf db path).length % 2 ^ 32
    let relationalCohesion :=
      Dbl.div (Dbl.add (Dbl.ofNat relationsInModule) (Dbl.fin 1))
        (Dbl.ofNat numberOfTypesInModule)
    { file := (mapFind ids path).getD 0
      value := relationalCohesion
      type := FileMetricType.RELATIONAL_COHESION }

/-- The transaction of `relationalCohesion`: one record persisted per module
path; `none` when `checkTypes` throws. -/
def relationalCohesion (db : RelationalTables) (moduleList : Option (List String))
    (inputPaths : List String) (store : List CppFileMetrics) :
    Option (List CppFileMetrics) :=
  let paths := modulePaths db moduleList inputPaths
  let ids := moduleIds db paths
  paths.foldlM
    (fun st path => (relationalCohesionModule db ids path).map fun r => st ++ [r])
    store

/-! ### The quantities N and R of a module, stated on the tables -/

/-- N: the number of distinct types defined in the module. -/
def moduleTypeCount (db : RelationalTables) (path : String) : Nat :=
  ((moduleRecords db path).map (fun record => record.typeHash)).toFinset.card

/-- The usage-site occurrences of a module, in the order `relationalCohesion`
scans them. -/
def moduleUsages (db : RelationalTables) (path : String) : List TypeUsage :=
  (db.functionView ++ db.parameterView ++ db.localView ++ db.variableView).filter
    (fun item => db.like item.filePath (path ++ "%"))

/-- The relationship count as the specification words it: the number of
distinct (occurrence file, type) pairs among the occurrences whose type is
defined in the module, in a file other than the file of the occurrence. -/
def distinctRelationPairs (db : RelationalTables) (path : String) : Nat :=
  (((moduleUsages db path).filter (fun item =>
      item.typeHash ∈ typesFoundOf db path ∧
      mapFind (typeDefinitionPathsOf db path) item.typeHash ≠ some item.filePath)).map
    (fun item => (item.filePath, item.typeHash))).toFinset.card

/-- `LIKE` for a pattern `p%` in which `p` has no wildcard: the string starts
with `p`. -/
def likeStartsWith (s pattern : String) : Bool :=
  pattern.data.dropLast.isPrefixOf s.data

/-- A module `/m` with two types defined in `/m/b.h` and one file `/m/a.cpp`
with a function returning each of them. -/
def twoTypesOneFile : RelationalTables :=
  { like := likeStartsWith
    DIRECTORY_TYPE := "DIR"
    files := [⟨"/m", 5, "DIR"⟩]
    records := [⟨1, "/m/b.h"⟩, ⟨2, "/m/b.h"⟩]
    functionView := [⟨1, "/m/a.cpp"⟩, ⟨2, "/m/a.cpp"⟩]
    parameterView := []
    localView := []
    variableView := [] }

/-- A module `/m` with three types and two files that each use one type
defined elsewhere. -/
def threeTypesTwoRelations : RelationalTables :=
  { like := likeStartsWith
    DIRECTORY_TYPE := "DIR"
    files := [⟨"/m", 5, "DIR"⟩]
    records := [⟨1, "/m/a.h"⟩, ⟨2, "/m/b.h"⟩, ⟨3, "/m/c.h"⟩]
    functionView := [⟨1, "/m/b.h"⟩, ⟨1, "/m/a.h"⟩]
    parameterView := [⟨2, "/m/c.h"⟩]
    localView := [⟨2, "/m/c.h"⟩]
    variableView := [⟨9, "/m/c.h"⟩] }

/-! ## Result caches and database cleanup -/

/-- Modelled from the spec: the per-file status `cc::parser::IncrementalStatus`
(its header is not part of the sources); the Change Classifier supplies one of
UNCHANGED, ADDED, MODIFIED, DELETED, ACTION_CHANGED. -/
inductive IncrementalStatus where
  | UNCHANGED
  | ADDED
  | MODIFIED
  | DELETED
  | ACTION_CHANGED
deriving DecidableEq

/-- Row of `model::File`: the columns the parser reads. -/
structure File where
  id : Nat
  path : String
deriving DecidableEq

/-- Row of the view `model::CppAstNodeMetricsFileView`. -/
structure CppAstNodeMetricsFileView where
  astNodeId : Nat
  fileId : Nat
deriving DecidableEq

/-- What `cleanupDatabase` reads and does not change: the file table, the map
`_ctx.fileStatus` from file path to status, and the file each AST node is
located in (`CppAstNode::location.file`). -/
structure ParserContext where
  files : List File
  fileStatus : List (String × IncrementalStatus)
  astNodeFile : List (Nat × Nat)

/-- What `cleanupDatabase` changes: the two caches of the parser and the two
metric tables. -/
structure MetricsState where
  fileIdCache : List Nat
  astNodeIdCache : List (Nat × Nat)
  fileMetrics : List CppFileMetrics
  astNodeMetrics : List CppAstNodeMetrics
deriving DecidableEq

/-- Modelled from the spec: the rows of the view
`model::CppAstNodeMetricsFileView` (its header is not part of the sources),
which pairs each entity-level record with the file that owns its AST node. -/
def astNodeMetricsFileView (ctx : ParserContext) (astNodeMetrics : List CppAstNodeMetrics) :
    List CppAstNodeMetricsFileView :=
  astNodeMetrics.filterMap fun r =>
    (mapFind ctx.astNodeFile r.astNodeId).bind fun fileId =>
      if ctx.files.any (fun file => file.id == fileId) then some ⟨r.astNodeId, fileId⟩
      else none

/-- The constructor of `CppMetricsParser`: the two caches are filled from the
metric tables. -/
def construct (ctx : ParserContext) (fileMetrics : List CppFileMetrics)
    (astNodeMetrics : List CppAstNodeMetrics) : MetricsState :=
  { fileIdCache := fileMetrics.foldl (fun cache fm => setInsert cache fm.file) []
    astNodeIdCache :=
      (astNodeMetricsFileView ctx astNodeMetrics).foldl
        (fun cache anm => mapInsert cache anm.astNodeId anm.fileId) []
    fileMetrics := fileMetrics
    astNodeMetrics := astNodeMetrics }

/-- The test both loops of `cleanupDatabase` make on a file path: the path has
a status, and the status is DELETED, MODIFIED or ACTION_CHANGED. -/
def needsCleanup (ctx : ParserContext) (path : String) : Bool :=
  match mapFind ctx.fileStatus path with
  | some IncrementalStatus.DELETED => true
  | some IncrementalStatus.MODIFIED => true
  | some IncrementalStatus.ACTION_CHANGED => true
  | _ => false

/-- One step of the first loop of `cleanupDatabase`. -/
def cleanupFileStep (ctx : ParserContext) (s : MetricsState) (file : File) : MetricsState :=
  if needsCleanup ctx file.path then
    { s with
      fileMetrics := s.fileMetrics.filter (fun fm => fm.file ≠ file.id)
      fileIdCache := s.fileIdCache.filter (fun id => id ≠ file.id) }
  else s

/-- The first loop of `cleanupDatabase`, over the rows of the file table whose
id is in `_fileIdCache` when the query is issued. -/
def cleanupFiles (ctx : ParserContext) (s : MetricsState) : MetricsState :=
  (ctx.files.filter (fun file => file.id ∈ s.fileIdCache)).foldl (cleanupFileStep ctx) s

/-- One step of the second loop of `cleanupDatabase`, a range-for over
`_astNodeIdCache`. It has no defined result (`none`) in two cases: `query_one`
finds no file and the null pointer is dereferenced; or the file needs cleanup,
and `_astNodeIdCache.erase(pair.first)` removes the very element the loop
stands on, which invalidates the iterator the range-for advances next
(undefined behaviour). An entry whose file needs no cleanup leaves the state
as it is. -/
def cleanupAstNodeStep (ctx : ParserContext) (s : MetricsState) (pair : Nat × Nat) :
    Option MetricsState :=
  match ctx.files.find? (fun file => file.id = pair.2) with
  | none => none
  | some file => if needsCleanup ctx file.path then none else some s

/-- The second loop of `cleanupDatabase`, over the entries of
`_astNodeIdCache`. -/
def cleanupAstNodes (ctx : ParserContext) (s : MetricsState) : Option MetricsState :=
  s.astNodeIdCache.foldlM (cleanupAstNodeStep ctx) s

/-- `CppMetricsParser::cleanupDatabase`: the returned flag and the state it
leaves. The store of the embedding cannot fail, so the `catch` branch that
returns `false` is never taken; `none` is a run of the second loop without a
defined result. -/
def cleanupDatabase (ctx : ParserContext) (s : MetricsState) : Option (Bool × MetricsState) :=
  if !s.fileIdCache.isEmpty then
    (cleanupAstNodes ctx (cleanupFiles ctx s)).map fun s1 => (true, s1)
  else some (true, s)

/-- The file with this id has a row whose path needs cleanup. -/
def staleFile (ctx : ParserContext) (fileId : Nat) : Bool :=
  ctx.files.any (fun file => file.id == fileId && needsCleanup ctx file.path)

/-- The file that owns the AST node needs cleanup. -/
def staleAstNode (ctx : ParserContext) (astNodeId : Nat) : Bool :=
  match mapFind ctx.astNodeFile astNodeId with
  | some fileId => staleFile ctx fileId
  | none => false

/-- A project in which `a.cpp` (file 10, modified) holds the function with AST
node 1, and `b.cpp` (file 11, unchanged) the function with AST node 2. -/
def modifiedFileContext : ParserContext :=
  { files := [⟨10, "a.cpp"⟩, ⟨11, "b.cpp"⟩, ⟨20, "/m"⟩]
    fileStatus := [("a.cpp", IncrementalStatus.MODIFIED)]
    astNodeFile := [(1, 10), (2, 11)] }

/-- The state a previous run leaves when it persisted function metrics and no
file-level metric. -/
def entityOnlyState : MetricsState :=
  construct modifiedFileContext []
    [⟨1, AstMetricType.MCCABE_FUNCTION, Dbl.fin 3⟩, ⟨2, AstMetricType.MCCABE_FUNCTION, Dbl.fin 1⟩]

/-- The state a previous run leaves when it persisted function metrics and a
file-level metric for the module `/m`. -/
def entityAndFileState : MetricsState :=
  construct modifiedFileContext [⟨20, FileMetricType.RELATIONAL_COHESION, Dbl.fin 1⟩]
    [⟨1, AstMetricType.MCCABE_FUNCTION, Dbl.fin 3⟩, ⟨2, AstMetricType.MCCABE_FUNCTION, Dbl.fin 1⟩]

/-- A project in which the module directory `/m` (file 20) is modified, and the
module directory `/n` (file 21) and `b.cpp` (file 11), which holds the function
with AST node 2, are unchanged. -/
def modifiedModuleContext : ParserContext :=
  { files := [⟨11, "b.cpp"⟩, ⟨20, "/m"⟩, ⟨21, "/n"⟩]
    fileStatus := [("/m", IncrementalStatus.MODIFIED)]
    astNodeFile := [(2, 11)] }

/-- The state a previous run leaves when it persisted a file-level metric for
each of the modules `/m` and `/n` and a function metric for AST node 2. -/
def modifiedModuleState : MetricsState :=
  construct modifiedModuleContext
    [⟨20, FileMetricType.RELATIONAL_COHESION, Dbl.fin 1⟩,
      ⟨21, FileMetricType.RELATIONAL_COHESION, Dbl.fin 2⟩]
    [⟨2, AstMetricType.MCCABE_FUNCTION, Dbl.fin 1⟩]

/-- The test the second loop of `cleanupDatabase` makes on a cache entry: the
file row `query_one` returns for the entry needs cleanup. -/
def staleEntry (ctx : ParserContext) (pair : Nat × Nat) : Bool :=
  match ctx.files.find? (fun file => file.id = pair.2) with
  | some file => needsCleanup ctx file.path
  | none => false

/-! ## Type-level McCabe -/

/-- Enumeration `model::CppAstNode::SymbolType`: the two values `typeMcCabe`
names, and the rest. -/
inductive SymbolType where
  | Function
  | Type
  | Other
deriving DecidableEq

/-- Enumeration `model::CppAstNode::AstType`: the value `typeMcCabe` names, and
the rest. -/
inductive AstType where
  | Definition
  | Other
deriving DecidableEq

/-- Enumeration `model::Tag`: the two values `typeMcCabe` names, and the
rest. -/
inductive Tag where
  | Implicit
  | TemplateInstantiation
  | Other
deriving DecidableEq

/-- Enumeration `model::CppMemberType::Kind`. -/
inductive MemberKind where
  | Field
  | Method
deriving DecidableEq

/-- Row of `model::CppAstNode`: the columns `typeMcCabe` reads; `file` is the id
behind the lazy pointer `location.file`. -/
structure CppAstNode where
  id : Nat
  entityHash : Nat
  symbolType : SymbolType
  astType : AstType
  file : Nat
deriving DecidableEq

/-- Row of `model::CppEntity`: the columns `typeMcCabe` reads. -/
structure CppEntity where
  astNodeId : Nat
  tags : List Tag
deriving DecidableEq

/-- Row of `model::CppMemberType`: the columns `typeMcCabe` reads;
`memberAstNode` is the id behind the lazy pointer. -/
structure CppMemberType where
  typeHash : Nat
  memberAstNode : Nat
  kind : MemberKind
deriving DecidableEq

/-- The tables `typeMcCabe` queries, with `cc::util::isRootedUnderAnyOf`, which
the source takes from the utility library. -/
structure McCabeTables where
  isRootedUnderAnyOf : List String → String → Bool
  astNodes : List CppAstNode
  files : List File
  entities : List CppEntity
  members : List CppMemberType
  astNodeMetrics : List CppAstNodeMetrics

/-- `query_one` on a column that is not a key: no row, the one row, or `none`
when several rows match and the call throws. -/
def queryOne {α : Type} (table : List α) (p : α → Bool) : Option (Option α) :=
  match table.filter p with
  | [] => some none
  | [a] => some (some a)
  | _ :: _ :: _ => none

/-- Conversion of a `double` to `unsigned int`: the value is truncated toward
zero; `none` when the truncated value is not below 2^32 or is negative, where
the conversion is undefined. -/
def toUnsigned : Dbl → Option Nat
  | Dbl.fin q => if -1 < q ∧ q < 2 ^ 32 then some (Rat.floor q).toNat else none
  | _ => none

/-- The test `entity && entity->tags.find(tag) != entity->tags.cend()`. -/
def hasTag (entity : Option CppEntity) (tag : Tag) : Bool :=
  match entity with
  | some e => decide (tag ∈ e.tags)
  | none => false

/-- Assignment `m[k] = v` of a `std::map` with integer keys, kept as a list in
ascending key order. -/
def orderedAssign (m : List (Nat × Nat)) (k v : Nat) : List (Nat × Nat) :=
  match m with
  | [] => [(k, v)]
  | (k1, v1) :: t =>
    if k < k1 then (k, v) :: (k1, v1) :: t
    else if k = k1 then (k, v) :: t
    else (k1, v1) :: orderedAssign t k v

/-- The function definitions that share the entity hash of an AST node, in the
order the query returns them. -/
def methodDefs (db : McCabeTables) (methodAstNode : CppAstNode) : List CppAstNode :=
  db.astNodes.filter (fun n =>
    n.entityHash = methodAstNode.entityHash ∧ n.symbolType = SymbolType.Function ∧
      n.astType = AstType.Definition)

/-- One step of the method loop of `typeMcCabe` on the value `mcValues[type.id]`;
`none` when a `query_one` throws or the sum leaves the range of
`unsigned int`. -/
def methodStep (db : McCabeTables) (acc : Nat) (method : CppMemberType) : Option Nat :=
  match db.astNodes.find? (fun n => n.id = method.memberAstNode) with
  | none => some acc
  | some methodAstNode =>
    match methodDefs db methodAstNode with
    | [] => some acc
    | methodDef :: _ =>
      (queryOne db.entities (fun e => e.astNodeId = methodDef.id)).bind fun entity =>
        if hasTag entity Tag.Implicit then some acc
        else
          (queryOne db.astNodeMetrics (fun m =>
              m.astNodeId = methodDef.id ∧ m.type = AstMetricType.MCCABE_FUNCTION)).bind
            fun funcMetrics =>
              match funcMetrics with
              | some m => toUnsigned (Dbl.add (Dbl.ofNat acc) m.value)
              | none => some acc

/-- The method members of a type. -/
def typeMethods (db : McCabeTables) (type : CppAstNode) : List CppMemberType :=
  db.members.filter (fun m => m.typeHash = type.entityHash ∧ m.kind = MemberKind.Method)

/-- One step of the type loop of `typeMcCabe` on the map `mcValues`. -/
def typeStep (db : McCabeTables) (inputPaths : List String) (mcValues : List (Nat × Nat))
    (type : CppAstNode) : Option (List (Nat × Nat)) :=
  match db.files.find? (fun f => f.id = type.file) with
  | none => some mcValues
  | some typeFile =>
    if !db.isRootedUnderAnyOf inputPaths typeFile.path then some mcValues
    else
      (queryOne db.entities (fun e => e.astNodeId = type.id)).bind fun typeEntity =>
        if hasTag typeEntity Tag.TemplateInstantiation then some mcValues
        else
          ((typeMethods db type).foldlM (methodStep db) 0).map fun value =>
            orderedAssign mcValues type.id value

/-- The type definitions `typeMcCabe` loops over. -/
def typeDefinitions (db : McCabeTables) : List CppAstNode :=
  db.astNodes.filter (fun n =>
    n.symbolType = SymbolType.Type ∧ n.astType = AstType.Definition)

/-- The transaction of `typeMcCabe`: the table of entity-level records after
it; `none` when it throws. -/
def typeMcCabe (db : McCabeTables) (inputPaths : List String) :
    Option (List CppAstNodeMetrics) :=
  ((typeDefinitions db).foldlM (typeStep db inputPaths) []).map fun mcValues =>
    mcValues.foldl
      (fun store mcValue =>
        store ++ [{ astNodeId := mcValue.1
                    type := AstMetricType.MCCABE_TYPE
                    value := Dbl.ofNat mcValue.2 }])
      db.astNodeMetrics

/-! ### The sum of a type, stated on the tables -/

/-- The type definition is rooted under an input path and is not a template
instantiation. -/
def eligibleType (db : McCabeTables) (inputPaths : List String) (type : CppAstNode) : Bool :=
  (match db.files.find? (fun f => f.id = type.file) with
    | some typeFile => db.isRootedUnderAnyOf inputPaths typeFile.path
    | none => false) &&
  !(db.entities.any (fun e =>
      decide (e.astNodeId = type.id) && decide (Tag.TemplateInstantiation ∈ e.tags)))

/-- The first-returned function definition of a method member, if any. -/
def methodDefinition (db : McCabeTables) (method : CppMemberType) : Option CppAstNode :=
  (db.astNodes.find? (fun n => n.id = method.memberAstNode)).bind fun methodAstNode =>
    (methodDefs db methodAstNode).head?

/-- The function definition is tagged Implicit. -/
def implicitDefinition (db : McCabeTables) (methodDef : CppAstNode) : Bool :=
  db.entities.any (fun e =>
    decide (e.astNodeId = methodDef.id) && decide (Tag.Implicit ∈ e.tags))

/-- The function definitions that count for a type: for each method member, its
first-returned definition when there is one and it is not tagged Implicit. -/
def eligibleMethodDefs (db : McCabeTables) (type : CppAstNode) : List CppAstNode :=
  (typeMethods db type).filterMap fun method =>
    (methodDefinition db method).filter fun methodDef => !implicitDefinition db methodDef

/-- The persisted `MCCABE_FUNCTION` value of a function definition, 0 when
there is none. -/
def persistedMcCabe (db : McCabeTables) (methodDef : CppAstNode) : Dbl :=
  match db.astNodeMetrics.find? (fun m =>
      m.astNodeId = methodDef.id ∧ m.type = AstMetricType.MCCABE_FUNCTION) with
  | some m => m.value
  | none => Dbl.fin 0

/-- The sum of a list of doubles. -/
def Dbl.sum (l : List Dbl) : Dbl := l.foldl Dbl.add (Dbl.fin 0)

/-- The sum of the persisted function values of the eligible methods of a
type. -/
def typeMcCabeSum (db : McCabeTables) (type : CppAstNode) : Dbl :=
  Dbl.sum ((eligibleMethodDefs db type).map (persistedMcCabe db))

/-- The store is as the earlier passes leave it: AST node ids are unique, an AST
node has at most one entity and at most one `MCCABE_FUNCTION` record, and every
`MCCABE_FUNCTION` value is an unsigned integer. -/
def McCabeTables.wellFormed (db : McCabeTables) : Prop :=
  (db.astNodes.map (fun n => n.id)).Nodup ∧
  (db.entities.map (fun e => e.astNodeId)).Nodup ∧
  ((db.astNodeMetrics.filter
      (fun m => m.type = AstMetricType.MCCABE_FUNCTION)).map (fun m => m.astNodeId)).Nodup ∧
  ∀ m ∈ db.astNodeMetrics, m.type = AstMetricType.MCCABE_FUNCTION →
    ∃ n : Nat, m.value = Dbl.ofNat n

/-- A class `A` (node 1) with two written methods of complexity 3 and 2 and an
implicit constructor, a class `B` (node 2) without methods, an instantiation of
a template (node 3), and a class of an external library (node 4). -/
def sampleMcCabeTables : McCabeTables :=
  { isRootedUnderAnyOf := fun paths path => paths.any (fun p => p.data.isPrefixOf path.data)
    astNodes :=
      [ ⟨1, 100, SymbolType.Type, AstType.Definition, 10⟩,
        ⟨2, 200, SymbolType.Type, AstType.Definition, 10⟩,
        ⟨3, 300, SymbolType.Type, AstType.Definition, 10⟩,
        ⟨4, 400, SymbolType.Type, AstType.Definition, 11⟩,
        ⟨11, 101, SymbolType.Function, AstType.Other, 10⟩,
        ⟨12, 101, SymbolType.Function, AstType.Definition, 12⟩,
        ⟨13, 102, SymbolType.Function, AstType.Definition, 10⟩,
        ⟨14, 103, SymbolType.Function, AstType.Definition, 10⟩,
        ⟨15, 301, SymbolType.Function, AstType.Definition, 10⟩ ]
    files := [⟨10, "/src/a.h"⟩, ⟨11, "/usr/include/v.h"⟩, ⟨12, "/src/a.cpp"⟩]
    entities := [⟨3, [Tag.TemplateInstantiation]⟩, ⟨14, [Tag.Implicit]⟩, ⟨12, [Tag.Other]⟩]
    members :=
      [ ⟨100, 11, MemberKind.Method⟩, ⟨100, 13, MemberKind.Method⟩,
        ⟨100, 14, MemberKind.Method⟩, ⟨100, 50, MemberKind.Field⟩,
        ⟨300, 15, MemberKind.Method⟩ ]
    astNodeMetrics :=
      [ ⟨12, AstMetricType.MCCABE_FUNCTION, Dbl.fin 3⟩,
        ⟨13, AstMetricType.MCCABE_FUNCTION, Dbl.fin 2⟩,
        ⟨13, AstMetricType.PARAMETER_COUNT, Dbl.fin 7⟩,
        ⟨14, AstMetricType.MCCABE_FUNCTION, Dbl.fin 1⟩,
        ⟨15, AstMetricType.MCCABE_FUNCTION, Dbl.fin 4⟩ ] }

/-! ## Partitioned passes -/

/-- The index at which partition `i` of `partCount` starts in a list of
`taskCount` tasks. -/
def partitionBound (taskCount partCount i : Nat) : Nat :=
  taskCount * i / partCount

/-- Modelled from the spec: the jobs `parallelCalcMetric` dispatches (the
function is defined in the header `cppmetricsparser.h`, which is not part of
the sources). The tasks are split into `partCount` contiguous partitions of
approximately equal size, in order: partition `i` holds the tasks from index
`taskCount * i / partCount` up to index `taskCount * (i + 1) / partCount`. -/
def parallelCalcMetric {α : Type} (partCount : Nat) (tasks : List α) : List (List α) :=
  (List.range partCount).map fun i =>
    (tasks.drop (partitionBound tasks.length partCount i)).take
      (partitionBound tasks.length partCount (i + 1) -
        partitionBound tasks.length partCount i)

/-- The jobs of a partitioned pass (`functionParameters`, `functionMcCabe`,
`functionBumpyRoad`, `lackOfCohesion`): `parallelCalcMetric` is called with
`_threadCount * multiplier` partitions. -/
def dispatchedJobs {α : Type} (threadCount multiplier : Nat) (tasks : List α) :
    List (List α) :=
  parallelCalcMetric (threadCount * multiplier) tasks

/-- The double is a number of the closed interval from `lo` to `hi`. -/
def Dbl.inInterval (lo hi : ℚ) : Dbl → Bool
  | Dbl.fin q => decide (lo ≤ q) && decide (q ≤ hi)
  | _ => false

/-- A type with two fields and two methods with a body: the first uses one
field, the second the other. -/
def twoMethodTables : CohesionTables :=
  { fields := [⟨7, 100⟩, ⟨7, 101⟩, ⟨7, 100⟩]
    methods := [⟨7, "a.cpp", 1, 1, 3, 1⟩, ⟨7, "a.cpp", 5, 1, 5, 1⟩, ⟨7, "a.cpp", 6, 1, 9, 1⟩]
    nodes := [⟨100, "a.cpp", 2, 1, 2, 5⟩, ⟨100, "a.cpp", 2, 7, 2, 9⟩, ⟨101, "a.cpp", 7, 0, 7, 1⟩,
      ⟨55, "a.cpp", 2, 0, 2, 1⟩] }

/-- A type with one field and one method whose body goes from line 1, column 10
to line 3, column 1; the field is referenced once, on line 1 from column 2 to
column 5, before the body starts. -/
def earlyNodeTables : CohesionTables :=
  { fields := [⟨7, 100⟩]
    methods := [⟨7, "a.cpp", 1, 10, 3, 1⟩]
    nodes := [⟨100, "a.cpp", 1, 2, 1, 5⟩] }

/-- The type of `earlyNodeTables` with a second method, whose body goes from
line 5 to line 7 and references no field. -/
def earlyNodeTwoMethodTables : CohesionTables :=
  { fields := [⟨7, 100⟩]
    methods := [⟨7, "a.cpp", 1, 10, 3, 1⟩, ⟨7, "a.cpp", 5, 1, 7, 1⟩]
    nodes := [⟨100, "a.cpp", 1, 2, 1, 5⟩] }

/-- A type with two fields and one method with a body, from line 1 to line 3 of
`a.cpp`: the first field is referenced on line 2, the second on line 8 of
`a.cpp` and on line 2 of `b.cpp`, both outside the method. -/
def spanMethodTables : CohesionTables :=
  { fields := [⟨7, 100⟩, ⟨7, 101⟩]
    methods := [⟨7, "a.cpp", 1, 1, 3, 1⟩]
    nodes := [⟨100, "a.cpp", 2, 1, 2, 5⟩, ⟨101, "a.cpp", 8, 1, 8, 5⟩,
      ⟨101, "b.cpp", 2, 1, 2, 5⟩] }

/-- A module list with the one path `/empty`, under which the tables
`threeTypesTwoRelations` define no type. -/
def emptyModuleList : Option (List String) := some ["/empty"]

/-- One step of `checkTypes` with the `std::none_of` conjunct taken out of the
condition. -/
def checkTypesStepWithoutNoneOf (typesFound : List Nat)
    (typeDefinitionPaths : List (Nat × String))
    (acc : List (String × Nat) × Nat) (item : TypeUsage) :
    Option (List (String × Nat) × Nat) :=
  if item.typeHash ∈ typesFound then
    match mapFind typeDefinitionPaths item.typeHash with
    | none => none
    | some definitionPath =>
      if definitionPath ≠ item.filePath ∧
          (acc.1.find? (fun pair => pair.1 = item.filePath)).isNone = true
      then some (acc.1 ++ [(item.filePath, item.typeHash)], acc.2 + 1)
      else some acc
  else some acc

/-- `checkTypes` without the `std::none_of` conjunct. -/
def checkTypesWithoutNoneOf (like : String → String → Bool) (table : List TypeUsage)
    (path : String) (typesFound : List Nat) (typeDefinitionPaths : List (Nat × String))
    (acc : List (String × Nat) × Nat) : Option (List (String × Nat) × Nat) :=
  (table.filter (fun item => like item.filePath (path ++ "%"))).foldlM
    (checkTypesStepWithoutNoneOf typesFound typeDefinitionPaths) acc

/-- The four scans of a module, with `checkTypesWithoutNoneOf` in place of
`checkTypes`. -/
def moduleRelationsWithoutNoneOf (db : RelationalTables) (path : String) :
    Option (List (String × Nat) × Nat) :=
  let typesFound := typesFoundOf db path
  let typeDefinitionPaths := typeDefinitionPathsOf db path
  (checkTypesWithoutNoneOf db.like db.functionView path typesFound typeDefinitionPaths
    ([], 0)).bind fun acc1 =>
  (checkTypesWithoutNoneOf db.like db.parameterView path typesFound typeDefinitionPaths
    acc1).bind fun acc2 =>
  (checkTypesWithoutNoneOf db.like db.localView path typesFound typeDefinitionPaths
    acc2).bind fun acc3 =>
  checkTypesWithoutNoneOf db.like db.variableView path typesFound typeDefinitionPaths acc3

/-! ## One record per subject and kind -/

/-- No two entity-level records have the same AST node id and the same kind. -/
def uniqueAstRecords (store : List CppAstNodeMetrics) : Bool :=
  decide ((store.map fun r => (r.astNodeId, r.type)).Nodup)

/-- No two file-level records have the same file id and the same kind. -/
def uniqueFileRecords (store : List CppFileMetrics) : Bool :=
  decide ((store.map fun r => (r.file, r.type)).Nodup)

/-- The file ids `relationalCohesion` writes its records on: `moduleIds[path]`
for each module path. -/
def moduleFileIds (db : RelationalTables) (moduleList : Option (List String))
    (inputPaths : List String) : List Nat :=
  (modulePaths db moduleList inputPaths).map fun path =>
    (mapFind (moduleIds db (modulePaths db moduleList inputPaths)) path).getD 0

/-- A class without methods (node 1) in a store that already holds its
`MCCABE_TYPE` record, as after an earlier run in which its file has not
changed since. -/
def recountTables : McCabeTables :=
  { isRootedUnderAnyOf := fun paths path => paths.any (fun p => p.data.isPrefixOf path.data)
    astNodes := [⟨1, 100, SymbolType.Type, AstType.Definition, 10⟩]
    files := [⟨10, "/src/a.h"⟩]
    entities := []
    members := []
    astNodeMetrics := [⟨1, AstMetricType.MCCABE_TYPE, Dbl.fin 0⟩] }

/-! ## Theorems -/

/-! ### Sets kept as lists -/

theorem setInsert_nodup {α : Type} [DecidableEq α] (s : List α) (a : α)
    (h : s.Nodup) : (setInsert s a).Nodup := by
  unfold setInsert
  split
  · exact h
  · rename_i hmem
    exact List.nodup_append.mpr ⟨h, List.nodup_singleton a, by
      intro x hx hx1
      have : x = a := by simpa using hx1
      exact hmem (this ▸ hx)⟩

theorem mem_setInsert {α : Type} [DecidableEq α] (s : List α) (a b : α) :
    b ∈ setInsert s a ↔ b ∈ s ∨ b = a := by
  unfold setInsert
  split
  · rename_i hmem
    constructor
    · intro h; exact Or.inl h
    · rintro (h | h)
      · exact h
      · exact h ▸ hmem
  · simp

/-- A loop that inserts `f x` for the elements `x` that pass a test builds a
duplicate-free list holding what it started from and the inserted values. -/
theorem foldl_setInsert_if {α β : Type} [DecidableEq α] (p : β → Prop)
    [DecidablePred p] (f : β → α) (l : List β) :
    ∀ acc : List α, acc.Nodup →
      (l.foldl (fun s x => if p x then setInsert s (f x) else s) acc).Nodup ∧
      ∀ a, a ∈ l.foldl (fun s x => if p x then setInsert s (f x) else s) acc ↔
        (a ∈ acc ∨ ∃ x ∈ l, p x ∧ f x = a) := by
  induction l with
  | nil => intro acc h; simp [h]
  | cons x t ih =>
    intro acc h
    simp only [List.foldl_cons]
    by_cases hp : p x
    · simp only [hp, if_true]
      obtain ⟨h1, h2⟩ := ih (setInsert acc (f x)) (setInsert_nodup acc (f x) h)
      refine ⟨h1, fun a => ?_⟩
      rw [h2 a, mem_setInsert]
      constructor
      · rintro ((h3 | h3) | ⟨y, hy, hpy, hfy⟩)
        · exact Or.inl h3
        · exact Or.inr ⟨x, List.mem_cons_self x t, hp, h3.symm⟩
        · exact Or.inr ⟨y, List.mem_cons_of_mem x hy, hpy, hfy⟩
      · rintro (h3 | ⟨y, hy, hpy, hfy⟩)
        · exact Or.inl (Or.inl h3)
        · rcases List.mem_cons.mp hy with rfl | hy
          · exact Or.inl (Or.inr hfy.symm)
          · exact Or.inr ⟨y, hy, hpy, hfy⟩
    · simp only [hp, if_false]
      obtain ⟨h1, h2⟩ := ih acc h
      refine ⟨h1, fun a => ?_⟩
      rw [h2 a]
      constructor
      · rintro (h3 | ⟨y, hy, hpy, hfy⟩)
        · exact Or.inl h3
        · exact Or.inr ⟨y, List.mem_cons_of_mem x hy, hpy, hfy⟩
      · rintro (h3 | ⟨y, hy, hpy, hfy⟩)
        · exact Or.inl h3
        · rcases List.mem_cons.mp hy with rfl | hy
          · exact absurd hpy hp
          · exact Or.inr ⟨y, hy, hpy, hfy⟩

/-- The unconditional insertion loop. -/
theorem foldl_setInsert {α β : Type} [DecidableEq α] (f : β → α) (l : List β) :
    ∀ acc : List α, acc.Nodup →
      (l.foldl (fun s x => setInsert s (f x)) acc).Nodup ∧
      ∀ a, a ∈ l.foldl (fun s x => setInsert s (f x)) acc ↔
        (a ∈ acc ∨ ∃ x ∈ l, f x = a) := by
  intro acc h
  have := foldl_setInsert_if (fun _ : β => True) f l acc h
  simpa using this

/-- A transaction that appends the records of each task persists the records
of the tasks in order. -/
theorem foldl_persist {α β : Type} (g : α → List β) (l : List α) :
    ∀ store : List β,
      l.foldl (fun st a => st ++ g a) store = store ++ (l.map g).flatten := by
  induction l with
  | nil => intro store; simp
  | cons a t ih => intro store; simp [ih, List.append_assoc]

/-! ### Bumpy road -/

/-- Claim C7. `functionBumpyRoad` persists, for each function it processes and
in order, one `BUMPY_ROAD` record keyed by the function's AST node id, whose
value is 1.0 when the statement count is zero (whatever the bumpiness) and
bumpiness / statement count otherwise. -/
theorem functionBumpyRoad_value (tasks : List CppFunctionBumpyRoad)
    (store : List CppAstNodeMetrics) :
    functionBumpyRoad tasks store =
      store ++ tasks.map (fun function =>
        { astNodeId := function.astNodeId
          type := AstMetricType.BUMPY_ROAD
          value := if function.statementCount = 0 then Dbl.fin 1
                   else Dbl.fin ((function.bumpiness : ℚ) / (function.statementCount : ℚ)) }) := by
  unfold functionBumpyRoad
  have h := foldl_persist (fun function => [bumpyRoadMetrics function]) tasks store
  rw [h]
  congr 1
  induction tasks with
  | nil => simp
  | cons a t ih =>
    have ih2 := ih (foldl_persist (fun function => [bumpyRoadMetrics function]) t store)
    simp only [List.map_cons, List.flatten_cons, List.singleton_append]
    rw [ih2]
    congr 1
    unfold bumpyRoadMetrics
    by_cases hc : a.statementCount = 0
    · simp [hc]
    · have hq : (a.statementCount : ℚ) ≠ 0 := by exact_mod_cast hc
      simp [hc, Dbl.ofNat, Dbl.div, hq]

/-! ### Lack of cohesion -/

theorem fieldHashesOf_nodup (db : CohesionTables) (type : CohesionCppRecordView) :
    (fieldHashesOf db type).Nodup :=
  (foldl_setInsert (fun field : CohesionCppFieldView => field.entityHash)
    (db.fields.filter (fun field => field.typeHash == type.entityHash)) []
    List.nodup_nil).1

theorem mem_fieldHashesOf (db : CohesionTables) (type : CohesionCppRecordView) (h : Nat) :
    h ∈ fieldHashesOf db type ↔
      h ∈ (typeFields db type).map (fun field => field.entityHash) := by
  have := (foldl_setInsert (fun field : CohesionCppFieldView => field.entityHash)
    (db.fields.filter (fun field => field.typeHash == type.entityHash)) []
    List.nodup_nil).2 h
  unfold fieldHashesOf typeFields
  rw [this]
  simp

/-- The size of `fieldHashes` is F. -/
theorem fieldHashesOf_length (db : CohesionTables) (type : CohesionCppRecordView) :
    (fieldHashesOf db type).length = distinctFieldCount db type := by
  unfold distinctFieldCount
  rw [← List.toFinset_card_of_nodup (fieldHashesOf_nodup db type)]
  congr 1
  ext h
  simp only [List.mem_toFinset]
  exact mem_fieldHashesOf db type h

/-- The size of `usedFields` is the number of distinct fields of the type
carried by the nodes the node query returns for the method. -/
theorem usedFields_length (db : CohesionTables) (type : CohesionCppRecordView)
    (method : CohesionCppMethodView) :
    (usedFields db (fieldHashesOf db type) method
        ⟨method.startLine, method.startColumn⟩ ⟨method.endLine, method.endColumn⟩).length
      = (queriedFieldSet db type method).card := by
  obtain ⟨hnd, hmem⟩ := foldl_setInsert_if
    (fun node : CohesionCppAstNodeView => node.entityHash ∈ fieldHashesOf db type)
    (fun node => node.entityHash)
    (db.nodes.filter (nodeQuery method ⟨method.startLine, method.startColumn⟩
      ⟨method.endLine, method.endColumn⟩)) [] List.nodup_nil
  unfold usedFields queriedFieldSet
  rw [← List.toFinset_card_of_nodup hnd]
  congr 1
  ext h
  simp only [List.mem_toFinset, Finset.mem_inter]
  rw [hmem h]
  simp only [List.not_mem_nil, false_or, List.mem_map]
  constructor
  · rintro ⟨node, hn, hf, rfl⟩
    exact ⟨⟨node, hn, rfl⟩, List.mem_map.mp ((mem_fieldHashesOf db type _).mp hf)⟩
  · rintro ⟨⟨node, hn, rfl⟩, hf⟩
    exact ⟨node, hn, (mem_fieldHashesOf db type _).mpr (List.mem_map.mpr hf), rfl⟩

/-- The method loop counts the qualifying methods and sums the sizes of their
queried field sets, starting from any value of the two counters. -/
theorem methodLoop_foldl (db : CohesionTables) (type : CohesionCppRecordView)
    (l : List CohesionCppMethodView) :
    ∀ acc : Nat × Nat,
      l.foldl
        (fun (acc : Nat × Nat) method =>
          let start : Position := ⟨method.startLine, method.startColumn⟩
          let stop : Position := ⟨method.endLine, method.endColumn⟩
          if Position.lt start stop then
            (acc.1 + 1,
              acc.2 + (usedFields db (fieldHashesOf db type) method start stop).length)
          else acc) acc
      = (acc.1 + (l.filter (fun method =>
            Position.lt ⟨method.startLine, method.startColumn⟩
              ⟨method.endLine, method.endColumn⟩)).length,
         acc.2 + ((l.filter (fun method =>
            Position.lt ⟨method.startLine, method.startColumn⟩
              ⟨method.endLine, method.endColumn⟩)).map
            (fun method => (queriedFieldSet db type method).card)).sum) := by
  induction l with
  | nil => intro acc; simp
  | cons m t ih =>
    intro acc
    simp only [List.foldl_cons]
    by_cases hq : Position.lt ⟨m.startLine, m.startColumn⟩ ⟨m.endLine, m.endColumn⟩ = true
    · rw [if_pos hq, ih]
      simp only [List.filter_cons, hq, if_true, List.length_cons, List.map_cons,
        List.sum_cons, usedFields_length]
      ext <;> simp <;> omega
    · rw [if_neg hq, ih]
      simp [List.filter_cons, hq]

/-- The counters of the method loop are M and the sum of the sizes of the
queried field sets. -/
theorem methodLoop_eq (db : CohesionTables) (type : CohesionCppRecordView) :
    methodLoop db type (fieldHashesOf db type) =
      ((qualifyingMethods db type).length, queriedCohesionSum db type) := by
  unfold methodLoop
  rw [methodLoop_foldl]
  simp [qualifyingMethods, queriedCohesionSum]

/-- The standard value in closed form. -/
theorem lcm_value (F M C : Nat) :
    (if (F == 0 || M == 0) = true then Dbl.fin 0
      else Dbl.sub (Dbl.fin 1)
        (Dbl.div (Dbl.ofNat C) (Dbl.mul (Dbl.ofNat M) (Dbl.ofNat F)))) =
    (if F = 0 ∨ M = 0 then Dbl.fin 0
      else Dbl.fin (1 - (C : ℚ) / ((M : ℚ) * (F : ℚ)))) := by
  by_cases hF : F = 0
  · simp [hF]
  by_cases hM : M = 0
  · simp [hM]
  have hF2 : (F : ℚ) ≠ 0 := by exact_mod_cast hF
  have hM2 : (M : ℚ) ≠ 0 := by exact_mod_cast hM
  simp [hF, hM, Dbl.ofNat, Dbl.mul, Dbl.div, Dbl.sub, Dbl.add, Dbl.neg, hF2, hM2,
    sub_eq_add_neg]

/-- The Henderson-Sellers value in closed form. -/
theorem lcm_hs_value (F M C : Nat) :
    (if (F == 0 || M == 0) = true then Dbl.fin 0
      else if (M == 1) = true then Dbl.nan
      else Dbl.div (Dbl.sub (Dbl.ofNat M) (Dbl.div (Dbl.ofNat C) (Dbl.ofNat F)))
        (Dbl.sub (Dbl.ofNat M) (Dbl.fin 1))) =
    (if F = 0 ∨ M = 0 then Dbl.fin 0
      else if M = 1 then Dbl.nan
      else Dbl.fin (((M : ℚ) - (C : ℚ) / (F : ℚ)) / ((M : ℚ) - 1))) := by
  by_cases hF : F = 0
  · simp [hF]
  by_cases hM : M = 0
  · simp [hM]
  by_cases h1 : M = 1
  · simp [hF, h1]
  have hF2 : (F : ℚ) ≠ 0 := by exact_mod_cast hF
  have hM1 : (M : ℚ) + -1 ≠ 0 := by
    intro h
    have : (M : ℚ) = 1 := by linarith
    exact h1 (by exact_mod_cast this)
  simp [hF, hM, h1, Dbl.ofNat, Dbl.div, Dbl.sub, Dbl.add, Dbl.neg, hF2, hM1,
    sub_eq_add_neg]

/-- The two records of a type, with F, M and the sum of the sizes of the queried
field sets in place of the loop results. -/
theorem lackOfCohesionType_eq (db : CohesionTables) (type : CohesionCppRecordView) :
    lackOfCohesionType db type =
      [ { astNodeId := type.astNodeId
          type := AstMetricType.LACK_OF_COHESION
          value :=
            if distinctFieldCount db type = 0 ∨ (qualifyingMethods db type).length = 0
            then Dbl.fin 0
            else Dbl.fin (1 - (queriedCohesionSum db type : ℚ) /
              (((qualifyingMethods db type).length : ℚ) * (distinctFieldCount db type : ℚ))) },
        { astNodeId := type.astNodeId
          type := AstMetricType.LACK_OF_COHESION_HS
          value :=
            if distinctFieldCount db type = 0 ∨ (qualifyingMethods db type).length = 0
            then Dbl.fin 0
            else if (qualifyingMethods db type).length = 1 then Dbl.nan
            else Dbl.fin ((((qualifyingMethods db type).length : ℚ) -
              (queriedCohesionSum db type : ℚ) / (distinctFieldCount db type : ℚ)) /
              (((qualifyingMethods db type).length : ℚ) - 1)) } ] := by
  unfold lackOfCohesionType
  simp only [methodLoop_eq, fieldHashesOf_length]
  rw [lcm_value, lcm_hs_value]

/-- A node within the span of a method is returned by the node query. -/
theorem nodeQuery_of_withinSpan (method : CohesionCppMethodView) (start stop : Position)
    (node : CohesionCppAstNodeView) (h : withinSpan method start stop node = true) :
    nodeQuery method start stop node = true := by
  unfold withinSpan Position.le Position.lt at h
  unfold nodeQuery
  simp only [Bool.and_eq_true, Bool.not_eq_true', Bool.or_eq_false_iff, decide_eq_false_iff_not,
    Bool.and_eq_false_imp, beq_iff_eq, decide_eq_true_eq] at h
  obtain ⟨⟨hfile, hs1, hs2⟩, he1, he2⟩ := h
  have h1 : start.line ≤ node.startLine := by omega
  have h2 : node.endLine ≤ stop.line := by omega
  simp [hfile, h1, h2]

/-- Where every node the query returns for a method lies within its span, the
fields the query collects are the fields the method uses. -/
theorem queriedFieldSet_eq_usedFieldSet (db : CohesionTables)
    (type : CohesionCppRecordView) (method : CohesionCppMethodView)
    (h : ∀ node ∈ db.nodes,
      nodeQuery method ⟨method.startLine, method.startColumn⟩
          ⟨method.endLine, method.endColumn⟩ node = true →
        withinSpan method ⟨method.startLine, method.startColumn⟩
          ⟨method.endLine, method.endColumn⟩ node = true) :
    queriedFieldSet db type method = usedFieldSet db type method := by
  unfold queriedFieldSet usedFieldSet
  have hfilter : db.nodes.filter (nodeQuery method ⟨method.startLine, method.startColumn⟩
      ⟨method.endLine, method.endColumn⟩) =
      db.nodes.filter (withinSpan method ⟨method.startLine, method.startColumn⟩
        ⟨method.endLine, method.endColumn⟩) := by
    apply List.filter_congr
    intro node hnode
    by_cases hq : nodeQuery method ⟨method.startLine, method.startColumn⟩
        ⟨method.endLine, method.endColumn⟩ node = true
    · rw [hq, h node hnode hq]
    · by_cases hw : withinSpan method ⟨method.startLine, method.startColumn⟩
          ⟨method.endLine, method.endColumn⟩ node = true
      · exact absurd (nodeQuery_of_withinSpan _ _ _ _ hw) hq
      · have h1 : nodeQuery method ⟨method.startLine, method.startColumn⟩
            ⟨method.endLine, method.endColumn⟩ node = false := by simpa using hq
        have h2 : withinSpan method ⟨method.startLine, method.startColumn⟩
            ⟨method.endLine, method.endColumn⟩ node = false := by simpa using hw
        rw [h1, h2]
  rw [hfilter]

/-- Where every node the query returns for a qualifying method lies within the
span of the method, `totalCohesion` is C. -/
theorem queriedCohesionSum_eq_cohesionSum (db : CohesionTables)
    (type : CohesionCppRecordView) (h : queryWithinSpan db type = true) :
    queriedCohesionSum db type = cohesionSum db type := by
  unfold queryWithinSpan at h
  rw [List.all_eq_true] at h
  unfold queriedCohesionSum cohesionSum
  congr 1
  apply List.map_congr_left
  intro method hmethod
  rw [queriedFieldSet_eq_usedFieldSet]
  intro node hnode hq
  have h1 := h method hmethod
  rw [List.all_eq_true] at h1
  have h2 := h1 node hnode
  rw [hq] at h2
  simpa using h2

/-- The two records of a type in terms of F, M and C, where every node the
query returns for a qualifying method lies within the span of the method. -/
theorem lackOfCohesionType_within_span (db : CohesionTables)
    (type : CohesionCppRecordView) (h : queryWithinSpan db type = true) :
    lackOfCohesionType db type =
      [ { astNodeId := type.astNodeId
          type := AstMetricType.LACK_OF_COHESION
          value :=
            if distinctFieldCount db type = 0 ∨ (qualifyingMethods db type).length = 0
            then Dbl.fin 0
            else Dbl.fin (1 - (cohesionSum db type : ℚ) /
              (((qualifyingMethods db type).length : ℚ) * (distinctFieldCount db type : ℚ))) },
        { astNodeId := type.astNodeId
          type := AstMetricType.LACK_OF_COHESION_HS
          value :=
            if distinctFieldCount db type = 0 ∨ (qualifyingMethods db type).length = 0
            then Dbl.fin 0
            else if (qualifyingMethods db type).length = 1 then Dbl.nan
            else Dbl.fin ((((qualifyingMethods db type).length : ℚ) -
              (cohesionSum db type : ℚ) / (distinctFieldCount db type : ℚ)) /
              (((qualifyingMethods db type).length : ℚ) - 1)) } ] := by
  rw [lackOfCohesionType_eq, queriedCohesionSum_eq_cohesionSum db type h]

/-- Claim C3 fails on the code: the type of `earlyNodeTables` has F = 1, M = 1
and C = 0, its one method using no field within its span, so that the claim
gives the value 1 - 0 / (1 * 1) = 1; `lackOfCohesion` persists one
`LACK_OF_COHESION` record for it, with the value 0, because the node query
returns the reference that lies before the start of the method. -/
theorem lackOfCohesion_standard_wrong_span :
    distinctFieldCount earlyNodeTables ⟨7, 1⟩ = 1 ∧
    (qualifyingMethods earlyNodeTables ⟨7, 1⟩).length = 1 ∧
    cohesionSum earlyNodeTables ⟨7, 1⟩ = 0 ∧
    (lackOfCohesionType earlyNodeTables ⟨7, 1⟩).filter
        (fun r => r.type = AstMetricType.LACK_OF_COHESION) =
      [⟨1, AstMetricType.LACK_OF_COHESION, Dbl.fin 0⟩] ∧
    Dbl.fin (1 - (cohesionSum earlyNodeTables ⟨7, 1⟩ : ℚ) /
        (((qualifyingMethods earlyNodeTables ⟨7, 1⟩).length : ℚ) *
          (distinctFieldCount earlyNodeTables ⟨7, 1⟩ : ℚ))) = Dbl.fin 1 := by
  have hF : distinctFieldCount earlyNodeTables ⟨7, 1⟩ = 1 := by decide
  have hM : (qualifyingMethods earlyNodeTables ⟨7, 1⟩).length = 1 := by decide
  have hC : cohesionSum earlyNodeTables ⟨7, 1⟩ = 0 := by decide
  have hQ : queriedCohesionSum earlyNodeTables ⟨7, 1⟩ = 1 := by decide
  refine ⟨hF, hM, hC, ?_, ?_⟩
  · rw [lackOfCohesionType_eq, hF, hM, hQ]
    simp [List.filter_cons]
  · rw [hF, hM, hC]
    norm_num

/-- Claim C4 fails on the code: the type of `earlyNodeTwoMethodTables` has F = 1,
M = 2 and C = 0, neither method using a field within its span, so that the
claim gives the value (2 - 0 / 1) / (2 - 1) = 2; `lackOfCohesion` persists one
`LACK_OF_COHESION_HS` record for it, with the value 1, because the node query
returns the reference that lies before the start of the first method. -/
theorem lackOfCohesion_hendersonSellers_wrong_span :
    distinctFieldCount earlyNodeTwoMethodTables ⟨7, 1⟩ = 1 ∧
    (qualifyingMethods earlyNodeTwoMethodTables ⟨7, 1⟩).length = 2 ∧
    cohesionSum earlyNodeTwoMethodTables ⟨7, 1⟩ = 0 ∧
    (lackOfCohesionType earlyNodeTwoMethodTables ⟨7, 1⟩).filter
        (fun r => r.type = AstMetricType.LACK_OF_COHESION_HS) =
      [⟨1, AstMetricType.LACK_OF_COHESION_HS, Dbl.fin 1⟩] ∧
    Dbl.fin ((((qualifyingMethods earlyNodeTwoMethodTables ⟨7, 1⟩).length : ℚ) -
        (cohesionSum earlyNodeTwoMethodTables ⟨7, 1⟩ : ℚ) /
          (distinctFieldCount earlyNodeTwoMethodTables ⟨7, 1⟩ : ℚ)) /
        (((qualifyingMethods earlyNodeTwoMethodTables ⟨7, 1⟩).length : ℚ) - 1)) =
      Dbl.fin 2 := by
  have hF : distinctFieldCount earlyNodeTwoMethodTables ⟨7, 1⟩ = 1 := by decide
  have hM : (qualifyingMethods earlyNodeTwoMethodTables ⟨7, 1⟩).length = 2 := by decide
  have hC : cohesionSum earlyNodeTwoMethodTables ⟨7, 1⟩ = 0 := by decide
  have hQ : queriedCohesionSum earlyNodeTwoMethodTables ⟨7, 1⟩ = 1 := by decide
  refine ⟨hF, hM, hC, ?_, ?_⟩
  · rw [lackOfCohesionType_eq, hF, hM, hQ]
    simp [List.filter_cons]
    norm_num
  · rw [hF, hM, hC]
    norm_num

/-- Claim C5, as stated, fails: a type with one qualifying method and no field
is trivial, so its Henderson-Sellers value is 0.0 and not NaN. -/
theorem lackOfCohesion_single_method_fieldless :
    ¬ ((qualifyingMethods fieldlessTables ⟨7, 1⟩).length = 1 →
        ∀ r ∈ lackOfCohesionType fieldlessTables ⟨7, 1⟩,
          r.type = AstMetricType.LACK_OF_COHESION_HS → r.value = Dbl.nan) := by
  intro h
  have h1 := h (by decide)
    ⟨1, AstMetricType.LACK_OF_COHESION_HS, Dbl.fin 0⟩ (by decide) rfl
  exact absurd h1 (by decide)

/-- Claim C5, amended. For every type with exactly one qualifying method and at
least one field, the Henderson-Sellers value is NaN and the standard value is
a number; and where every AST node the node query returns for that method lies
within its span, the standard value is 1 - usedFields / F, usedFields being
the number of distinct fields of the type referenced within the span of the
method. -/
theorem lackOfCohesion_single_method (db : CohesionTables)
    (type : CohesionCppRecordView) (method : CohesionCppMethodView)
    (hM : qualifyingMethods db type = [method])
    (hF : 0 < distinctFieldCount db type) :
    (lackOfCohesionType db type).filter
        (fun r => r.type = AstMetricType.LACK_OF_COHESION_HS) =
      [⟨type.astNodeId, AstMetricType.LACK_OF_COHESION_HS, Dbl.nan⟩] ∧
    (∃ q : ℚ, (lackOfCohesionType db type).filter
        (fun r => r.type = AstMetricType.LACK_OF_COHESION) =
      [⟨type.astNodeId, AstMetricType.LACK_OF_COHESION, Dbl.fin q⟩]) ∧
    (queryWithinSpan db type = true →
      lackOfCohesionType db type =
        [ { astNodeId := type.astNodeId
            type := AstMetricType.LACK_OF_COHESION
            value := Dbl.fin (1 - ((usedFieldSet db type method).card : ℚ) /
              (distinctFieldCount db type : ℚ)) },
          { astNodeId := type.astNodeId
            type := AstMetricType.LACK_OF_COHESION_HS
            value := Dbl.nan } ]) := by
  have hF2 : distinctFieldCount db type ≠ 0 := by omega
  refine ⟨?_, ?_, ?_⟩
  · rw [lackOfCohesionType_eq]
    simp [hM, hF2, List.filter_cons]
  · rw [lackOfCohesionType_eq]
    refine ⟨1 - (queriedCohesionSum db type : ℚ) / (1 * (distinctFieldCount db type : ℚ)), ?_⟩
    simp [hM, hF2, List.filter_cons]
  · intro hspan
    rw [lackOfCohesionType_within_span db type hspan]
    simp [hM, hF2, cohesionSum]

/-- Witness of `lackOfCohesion_single_method`: one method that uses one of two
fields within its span, the other field being referenced outside it, gives
1 - 1/2. -/
theorem lackOfCohesion_single_method_witness :
    qualifyingMethods spanMethodTables ⟨7, 1⟩ = [⟨7, "a.cpp", 1, 1, 3, 1⟩] ∧
    0 < distinctFieldCount spanMethodTables ⟨7, 1⟩ ∧
    queryWithinSpan spanMethodTables ⟨7, 1⟩ = true ∧
    (usedFieldSet spanMethodTables ⟨7, 1⟩ ⟨7, "a.cpp", 1, 1, 3, 1⟩).card = 1 ∧
    distinctFieldCount spanMethodTables ⟨7, 1⟩ = 2 ∧
    lackOfCohesionType spanMethodTables ⟨7, 1⟩ =
      [ { astNodeId := 1
          type := AstMetricType.LACK_OF_COHESION
          value := Dbl.fin (1 -
            ((usedFieldSet spanMethodTables ⟨7, 1⟩ ⟨7, "a.cpp", 1, 1, 3, 1⟩).card : ℚ) /
            (distinctFieldCount spanMethodTables ⟨7, 1⟩ : ℚ)) },
        { astNodeId := 1
          type := AstMetricType.LACK_OF_COHESION_HS
          value := Dbl.nan } ] :=
  ⟨by decide, by decide, by decide, by decide, by decide,
    (lackOfCohesion_single_method spanMethodTables ⟨7, 1⟩ ⟨7, "a.cpp", 1, 1, 3, 1⟩
      (by decide) (by decide)).2.2 (by decide)⟩

/-! ### Database cleanup -/

/-- The first loop in closed form: it removes from the file-id cache and from
the file-level records exactly the entries of the files that have a row in `l`
needing cleanup, and leaves the entity-level side alone. -/
theorem cleanupFiles_foldl (ctx : ParserContext) (l : List File) :
    ∀ s : MetricsState,
      (l.foldl (cleanupFileStep ctx) s).fileIdCache =
          s.fileIdCache.filter
            (fun id => !(l.any (fun file => file.id == id && needsCleanup ctx file.path))) ∧
      (l.foldl (cleanupFileStep ctx) s).fileMetrics =
          s.fileMetrics.filter
            (fun fm => !(l.any (fun file => file.id == fm.file && needsCleanup ctx file.path))) ∧
      (l.foldl (cleanupFileStep ctx) s).astNodeIdCache = s.astNodeIdCache ∧
      (l.foldl (cleanupFileStep ctx) s).astNodeMetrics = s.astNodeMetrics := by
  induction l with
  | nil => intro s; simp
  | cons file t ih =>
    intro s
    obtain ⟨h1, h2, h3, h4⟩ := ih (cleanupFileStep ctx s file)
    simp only [List.foldl_cons]
    rw [h1, h2, h3, h4]
    unfold cleanupFileStep
    by_cases hn : needsCleanup ctx file.path = true
    · rw [if_pos hn]
      refine ⟨?_, ?_, rfl, rfl⟩
      · simp only [List.filter_filter]
        apply List.filter_congr
        intro id _
        by_cases hid : file.id = id
        · simp [hid, hn]
        · have : ¬ id = file.id := fun h => hid h.symm
          simp [hid, this]
      · simp only [List.filter_filter]
        apply List.filter_congr
        intro fm _
        by_cases hid : file.id = fm.file
        · simp [hid, hn]
        · have : ¬ fm.file = file.id := fun h => hid h.symm
          simp [hid, this]
    · rw [if_neg hn]
      simp [hn]

/-- A loop over files of which none needs cleanup changes nothing. -/
theorem cleanupFiles_foldl_none (ctx : ParserContext) (l : List File)
    (h : ∀ file ∈ l, needsCleanup ctx file.path = false) :
    ∀ s : MetricsState, l.foldl (cleanupFileStep ctx) s = s := by
  induction l with
  | nil => intro s; rfl
  | cons file t ih =>
    intro s
    have hf := h file (List.mem_cons_self file t)
    simp only [List.foldl_cons, cleanupFileStep, hf]
    exact ih (fun f hf2 => h f (List.mem_cons_of_mem file hf2)) s

/-- A step of the second loop that has a result leaves the state as it is: the
entry has a file row, and the file needs no cleanup. -/
theorem cleanupAstNodeStep_some (ctx : ParserContext) (s s1 : MetricsState)
    (pair : Nat × Nat) (h : cleanupAstNodeStep ctx s pair = some s1) :
    s1 = s ∧ (ctx.files.find? (fun file => file.id = pair.2)).isSome = true ∧
      staleEntry ctx pair = false := by
  unfold cleanupAstNodeStep at h
  unfold staleEntry
  split at h
  · exact absurd h (by simp)
  · rename_i file hfile
    split at h
    · exact absurd h (by simp)
    · rename_i hn
      refine ⟨(Option.some.inj h).symm, by rw [hfile]; rfl, ?_⟩
      rw [hfile]
      simpa using hn

/-- When the second loop completes, it has changed nothing, every entry it
visited has a file row, and none of these files needs cleanup. -/
theorem cleanupAstNodes_foldlM (ctx : ParserContext) (l : List (Nat × Nat)) :
    ∀ s s1 : MetricsState, l.foldlM (cleanupAstNodeStep ctx) s = some s1 →
      s1 = s ∧
      ∀ pair ∈ l, (ctx.files.find? (fun file => file.id = pair.2)).isSome = true ∧
        staleEntry ctx pair = false := by
  induction l with
  | nil =>
    intro s s1 h
    have : s = s1 := by simpa using h
    exact ⟨this.symm, fun pair hp => absurd hp (List.not_mem_nil pair)⟩
  | cons pair t ih =>
    intro s s1 h
    rw [List.foldlM_cons] at h
    cases hstep : cleanupAstNodeStep ctx s pair with
    | none => rw [hstep] at h; exact absurd h (by simp)
    | some s2 =>
      rw [hstep] at h
      obtain ⟨hs2, hrow, hclean⟩ := cleanupAstNodeStep_some ctx s s2 pair hstep
      obtain ⟨h1, h2⟩ := ih s2 s1 h
      refine ⟨by rw [h1, hs2], fun p hp => ?_⟩
      rcases List.mem_cons.mp hp with rfl | hp
      · exact ⟨hrow, hclean⟩
      · exact h2 p hp

/-- A loop over entries that all have a file row, none of which needs cleanup,
completes and changes nothing. -/
theorem cleanupAstNodes_foldlM_none (ctx : ParserContext) (l : List (Nat × Nat))
    (hrow : ∀ pair ∈ l, (ctx.files.find? (fun file => file.id = pair.2)).isSome = true)
    (h : ∀ pair ∈ l, staleEntry ctx pair = false) :
    ∀ s : MetricsState, l.foldlM (cleanupAstNodeStep ctx) s = some s := by
  induction l with
  | nil => intro s; rfl
  | cons pair t ih =>
    intro s
    have h1 := hrow pair (List.mem_cons_self pair t)
    have h2 := h pair (List.mem_cons_self pair t)
    obtain ⟨file, hfile⟩ := Option.isSome_iff_exists.mp h1
    have hn : needsCleanup ctx file.path = false := by
      unfold staleEntry at h2; rw [hfile] at h2; exact h2
    have hstep : cleanupAstNodeStep ctx s pair = some s := by
      unfold cleanupAstNodeStep; rw [hfile]; simp [hn]
    rw [List.foldlM_cons, hstep]
    exact ih (fun p hp => hrow p (List.mem_cons_of_mem pair hp))
      (fun p hp => h p (List.mem_cons_of_mem pair hp)) s

/-- What a successful `cleanupDatabase` returns: the state itself when the
file-id cache is empty, and else the result of the two loops. -/
theorem cleanupDatabase_some (ctx : ParserContext) (s s1 : MetricsState) (b : Bool)
    (h : cleanupDatabase ctx s = some (b, s1)) :
    b = true ∧
    ((s.fileIdCache = [] ∧ s1 = s) ∨
     (s.fileIdCache ≠ [] ∧ cleanupAstNodes ctx (cleanupFiles ctx s) = some s1)) := by
  unfold cleanupDatabase at h
  by_cases he : s.fileIdCache = []
  · simp [he] at h
    exact ⟨h.1, Or.inl ⟨he, h.2.symm⟩⟩
  · have he2 : s.fileIdCache.isEmpty = false := by
      cases hc : s.fileIdCache with
      | nil => exact absurd hc he
      | cons a t => rfl
    simp only [he2, Bool.not_false, if_true] at h
    cases h2 : cleanupAstNodes ctx (cleanupFiles ctx s) with
    | none => rw [h2] at h; exact absurd h (by simp)
    | some s2 =>
      rw [h2] at h
      simp only [Option.map_some', Option.some.injEq, Prod.mk.injEq] at h
      exact ⟨h.1.symm, Or.inr ⟨he, by rw [h.2]⟩⟩

/-- After the two loops the state is what the first loop left, no file row
whose id is still cached needs cleanup, and every cached AST-node entry has a
file row that needs no cleanup. -/
theorem cleanup_loops_clean (ctx : ParserContext) (s s1 : MetricsState)
    (h : cleanupAstNodes ctx (cleanupFiles ctx s) = some s1) :
    s1 = cleanupFiles ctx s ∧
    (∀ file ∈ ctx.files.filter (fun file => file.id ∈ s1.fileIdCache),
        needsCleanup ctx file.path = false) ∧
    (∀ pair ∈ s1.astNodeIdCache,
        (ctx.files.find? (fun file => file.id = pair.2)).isSome = true) ∧
    (∀ pair ∈ s1.astNodeIdCache, staleEntry ctx pair = false) := by
  obtain ⟨h0, h1⟩ :=
    cleanupAstNodes_foldlM ctx (cleanupFiles ctx s).astNodeIdCache (cleanupFiles ctx s) s1 h
  obtain ⟨g1, _, _, _⟩ :=
    cleanupFiles_foldl ctx (ctx.files.filter (fun file => file.id ∈ s.fileIdCache)) s
  refine ⟨h0, ?_, ?_, ?_⟩
  · intro file hfile
    rw [List.mem_filter] at hfile
    obtain ⟨hmem, hid⟩ := hfile
    have hid2 : file.id ∈ s1.fileIdCache := by simpa using hid
    rw [h0] at hid2
    unfold cleanupFiles at hid2
    rw [g1, List.mem_filter] at hid2
    obtain ⟨hin, hany⟩ := hid2
    by_contra hne
    have hn : needsCleanup ctx file.path = true := by simpa using hne
    have : (ctx.files.filter (fun file => file.id ∈ s.fileIdCache)).any
        (fun f => f.id == file.id && needsCleanup ctx f.path) = true := by
      rw [List.any_eq_true]
      exact ⟨file, List.mem_filter.mpr ⟨hmem, by simpa using hin⟩, by simp [hn]⟩
    rw [this] at hany
    exact absurd hany (by simp)
  · intro pair hp
    rw [h0] at hp
    exact (h1 pair hp).1
  · intro pair hp
    rw [h0] at hp
    exact (h1 pair hp).2

/-- `cleanupDatabase` returns true whenever every cached AST-node entry has a
file row that needs no cleanup. -/
theorem cleanupDatabase_returns (ctx : ParserContext) (s : MetricsState)
    (hrow : ∀ pair ∈ s.astNodeIdCache,
      (ctx.files.find? (fun file => file.id = pair.2)).isSome = true)
    (hclean : ∀ pair ∈ s.astNodeIdCache, staleEntry ctx pair = false) :
    ∃ s1 : MetricsState, cleanupDatabase ctx s = some (true, s1) := by
  unfold cleanupDatabase
  split
  · obtain ⟨_, _, g3, _⟩ :=
      cleanupFiles_foldl ctx (ctx.files.filter (fun file => file.id ∈ s.fileIdCache)) s
    have hsome : cleanupAstNodes ctx (cleanupFiles ctx s) = some (cleanupFiles ctx s) := by
      unfold cleanupAstNodes
      apply cleanupAstNodes_foldlM_none
      · intro pair hp
        unfold cleanupFiles at hp
        rw [g3] at hp
        exact hrow pair hp
      · intro pair hp
        unfold cleanupFiles at hp
        rw [g3] at hp
        exact hclean pair hp
    exact ⟨cleanupFiles ctx s, by rw [hsome]; rfl⟩
  · exact ⟨s, rfl⟩

/-- With a file-level record in the store the second loop runs, and on the
entry of AST node 1, whose file `a.cpp` is modified, it erases the element it
stands on: the call has no defined result. -/
theorem cleanupDatabase_erases_while_iterating :
    cleanupDatabase modifiedFileContext entityAndFileState = none := by
  decide

/-- Claim C9. `cleanupDatabase` is idempotent for a fixed file-status map: a
second run right after a successful first run succeeds and returns the state
the first run left, so it deletes no record and removes no cache entry. -/
theorem cleanupDatabase_idempotent (ctx : ParserContext) (s s1 : MetricsState)
    (h : cleanupDatabase ctx s = some (true, s1)) :
    cleanupDatabase ctx s1 = some (true, s1) := by
  obtain ⟨_, hcase⟩ := cleanupDatabase_some ctx s s1 true h
  rcases hcase with ⟨_, rfl⟩ | ⟨_, hloops⟩
  · exact h
  · obtain ⟨_, c1, c2, c3⟩ := cleanup_loops_clean ctx s s1 hloops
    unfold cleanupDatabase
    split
    · have hf : cleanupFiles ctx s1 = s1 := by
        unfold cleanupFiles
        exact cleanupFiles_foldl_none ctx _ c1 s1
      rw [hf]
      have ha : cleanupAstNodes ctx s1 = some s1 := by
        unfold cleanupAstNodes
        exact cleanupAstNodes_foldlM_none ctx _ c2 c3 s1
      rw [ha]; rfl
    · rfl

/-- Witness of `cleanupDatabase_idempotent`: the state with one modified and
one unchanged module, where the first run deletes the file-level record of
the modified module and the second run changes nothing. -/
theorem cleanupDatabase_idempotent_witness :
    cleanupDatabase modifiedModuleContext modifiedModuleState =
        some (true, ⟨[21], [(2, 11)], [⟨21, FileMetricType.RELATIONAL_COHESION, Dbl.fin 2⟩],
          [⟨2, AstMetricType.MCCABE_FUNCTION, Dbl.fin 1⟩]⟩) ∧
    cleanupDatabase modifiedModuleContext
        ⟨[21], [(2, 11)], [⟨21, FileMetricType.RELATIONAL_COHESION, Dbl.fin 2⟩],
          [⟨2, AstMetricType.MCCABE_FUNCTION, Dbl.fin 1⟩]⟩ =
      some (true, ⟨[21], [(2, 11)], [⟨21, FileMetricType.RELATIONAL_COHESION, Dbl.fin 2⟩],
          [⟨2, AstMetricType.MCCABE_FUNCTION, Dbl.fin 1⟩]⟩) :=
  ⟨by decide,
    cleanupDatabase_idempotent modifiedModuleContext modifiedModuleState _ (by decide)⟩

/-- Filtering twice by a test the first filter never fails on is filtering
once. -/
theorem filter_filter_of_imp {α : Type} (p q : α → Bool) (l : List α)
    (h : ∀ a ∈ l, q a = true → p a = true) :
    (l.filter p).filter q = l.filter q := by
  rw [List.filter_filter]
  apply List.filter_congr
  intro a ha
  by_cases hq : q a = true
  · simp [hq, h a ha hq]
  · simp [hq]

/-- An entry the second loop treats as stale belongs to a file that needs
cleanup. -/
theorem staleFile_of_staleEntry (ctx : ParserContext) (pair : Nat × Nat)
    (h : staleEntry ctx pair = true) : staleFile ctx pair.2 = true := by
  unfold staleEntry at h
  split at h
  · rename_i file hfile
    unfold staleFile
    rw [List.any_eq_true]
    refine ⟨file, List.mem_of_find?_eq_some hfile, ?_⟩
    have := List.find?_some hfile
    simp only [decide_eq_true_eq] at this
    simp [this, h]
  · exact absurd h (by simp)

/-- The entries the insertion loop of the constructor leaves come from the rows
it read. -/
theorem mem_foldl_mapInsert (l : List CppAstNodeMetricsFileView) :
    ∀ (acc : List (Nat × Nat)) (x : Nat × Nat),
      x ∈ l.foldl (fun cache anm => mapInsert cache anm.astNodeId anm.fileId) acc →
      x ∈ acc ∨ ∃ anm ∈ l, x = (anm.astNodeId, anm.fileId) := by
  induction l with
  | nil => intro acc x h; exact Or.inl h
  | cons a t ih =>
    intro acc x h
    simp only [List.foldl_cons] at h
    rcases ih _ x h with h1 | ⟨anm, hanm, hx⟩
    · unfold mapInsert at h1
      split at h1
      · exact Or.inl h1
      · rcases List.mem_append.mp h1 with h2 | h2
        · exact Or.inl h2
        · exact Or.inr ⟨a, List.mem_cons_self a t, by simpa using h2⟩
    · exact Or.inr ⟨anm, List.mem_cons_of_mem a hanm, hx⟩

/-- The AST-node cache the constructor builds maps each AST node to the file
that owns it. -/
theorem construct_owner (ctx : ParserContext) (fileMetrics : List CppFileMetrics)
    (astNodeMetrics : List CppAstNodeMetrics) :
    ∀ pair ∈ (construct ctx fileMetrics astNodeMetrics).astNodeIdCache,
      mapFind ctx.astNodeFile pair.1 = some pair.2 := by
  intro pair hp
  unfold construct at hp
  rcases mem_foldl_mapInsert _ [] pair hp with h | ⟨anm, hanm, rfl⟩
  · exact absurd h (List.not_mem_nil pair)
  · unfold astNodeMetricsFileView at hanm
    rw [List.mem_filterMap] at hanm
    obtain ⟨r, _, hr⟩ := hanm
    cases hf : mapFind ctx.astNodeFile r.astNodeId with
    | none => rw [hf] at hr; exact absurd hr (by simp)
    | some fileId =>
      rw [hf] at hr
      simp only [Option.some_bind] at hr
      split at hr
      · have := Option.some.inj hr
        subst this
        exact hf
      · exact absurd hr (by simp)

/-- Claim C10. `cleanupDatabase` deletes a record or removes a cache entry only
if the owning file needs cleanup (its status is DELETED, MODIFIED or
ACTION_CHANGED): after a call that returns true, the file-level records, the
entity-level records, the cached file ids and the cached AST-node entries
whose file is UNCHANGED, ADDED or without a status are exactly what they were
before the call. -/
theorem cleanupDatabase_frame (ctx : ParserContext) (s s1 : MetricsState)
    (h : cleanupDatabase ctx s = some (true, s1)) :
    s1.fileMetrics.filter (fun fm => !staleFile ctx fm.file) =
        s.fileMetrics.filter (fun fm => !staleFile ctx fm.file) ∧
    s1.astNodeMetrics.filter (fun m => !staleAstNode ctx m.astNodeId) =
        s.astNodeMetrics.filter (fun m => !staleAstNode ctx m.astNodeId) ∧
    s1.fileIdCache.filter (fun id => !staleFile ctx id) =
        s.fileIdCache.filter (fun id => !staleFile ctx id) ∧
    s1.astNodeIdCache.filter (fun entry => !staleFile ctx entry.2) =
        s.astNodeIdCache.filter (fun entry => !staleFile ctx entry.2) := by
  obtain ⟨_, hcase⟩ := cleanupDatabase_some ctx s s1 true h
  rcases hcase with ⟨_, rfl⟩ | ⟨_, hloops⟩
  · exact ⟨rfl, rfl, rfl, rfl⟩
  · obtain ⟨hs1, _, _, _⟩ := cleanup_loops_clean ctx s s1 hloops
    obtain ⟨g1, g2, g3, g4⟩ :=
      cleanupFiles_foldl ctx (ctx.files.filter (fun file => file.id ∈ s.fileIdCache)) s
    have hfiles : ∀ id : Nat,
        (ctx.files.filter (fun file => file.id ∈ s.fileIdCache)).any
          (fun file => file.id == id && needsCleanup ctx file.path) = true →
        staleFile ctx id = true := by
      intro id hany
      rw [List.any_eq_true] at hany
      obtain ⟨file, hfile, hprop⟩ := hany
      unfold staleFile
      rw [List.any_eq_true]
      exact ⟨file, (List.mem_filter.mp hfile).1, hprop⟩
    rw [hs1]
    unfold cleanupFiles
    rw [g1, g2, g3, g4]
    refine ⟨?_, rfl, ?_, rfl⟩
    · apply filter_filter_of_imp
      intro fm _ hq
      by_contra hne
      have hany := hfiles fm.file (by simpa using hne)
      rw [hany] at hq
      exact absurd hq (by simp)
    · apply filter_filter_of_imp
      intro id _ hq
      by_contra hne
      have hany := hfiles id (by simpa using hne)
      rw [hany] at hq
      exact absurd hq (by simp)

/-- Witness of `cleanupDatabase_frame`: in the state with one modified and one
unchanged module, the file-level record of the unchanged module stays. -/
theorem cleanupDatabase_frame_witness :
    cleanupDatabase modifiedModuleContext modifiedModuleState =
        some (true, ⟨[21], [(2, 11)], [⟨21, FileMetricType.RELATIONAL_COHESION, Dbl.fin 2⟩],
          [⟨2, AstMetricType.MCCABE_FUNCTION, Dbl.fin 1⟩]⟩) ∧
    [(⟨21, FileMetricType.RELATIONAL_COHESION, Dbl.fin 2⟩ : CppFileMetrics)].filter
        (fun fm => !staleFile modifiedModuleContext fm.file) =
      modifiedModuleState.fileMetrics.filter
        (fun fm => !staleFile modifiedModuleContext fm.file) :=
  ⟨by decide,
    (cleanupDatabase_frame modifiedModuleContext modifiedModuleState
      ⟨[21], [(2, 11)], [⟨21, FileMetricType.RELATIONAL_COHESION, Dbl.fin 2⟩],
        [⟨2, AstMetricType.MCCABE_FUNCTION, Dbl.fin 1⟩]⟩ (by decide)).1⟩

/-! ### Relational cohesion -/

/-- A key is found in a map exactly when some entry carries it. -/
theorem mapFind_isSome {κ ν : Type} [DecidableEq κ] (m : List (κ × ν)) (k : κ) :
    (mapFind m k).isSome = true ↔ k ∈ m.map Prod.fst := by
  unfold mapFind
  rw [Option.isSome_map', List.find?_isSome]
  simp only [decide_eq_true_eq, List.mem_map]

/-- Every key inserted by the loop that fills `typeDefinitionPaths` is a key of
the map it leaves. -/
theorem keys_foldl_mapInsert (l : List RelationalCohesionRecordView) :
    ∀ (acc : List (Nat × String)) (k : Nat),
      (k ∈ acc.map Prod.fst ∨ ∃ record ∈ l, record.typeHash = k) →
      k ∈ (l.foldl (fun paths record => mapInsert paths record.typeHash record.filePath)
        acc).map Prod.fst := by
  induction l with
  | nil =>
    intro acc k h
    rcases h with h | ⟨r, hr, _⟩
    · exact h
    · exact absurd hr (List.not_mem_nil r)
  | cons a t ih =>
    intro acc k h
    simp only [List.foldl_cons]
    apply ih
    rcases h with h | ⟨r, hr, hk⟩
    · left
      unfold mapInsert
      split
      · exact h
      · simp only [List.map_append, List.mem_append]; exact Or.inl h
    · rcases List.mem_cons.mp hr with rfl | hr
      · left
        unfold mapInsert
        split
        · rename_i hmem; exact hk ▸ hmem
        · simp [hk]
      · exact Or.inr ⟨r, hr, hk⟩

/-- Every type hash in `typesFound` is a key of `typeDefinitionPaths`: the two
are filled by the same loop. -/
theorem typesFound_has_definitionPath (db : RelationalTables) (path : String) (k : Nat)
    (h : k ∈ typesFoundOf db path) :
    (mapFind (typeDefinitionPathsOf db path) k).isSome = true := by
  rw [mapFind_isSome]
  unfold typeDefinitionPathsOf
  apply keys_foldl_mapInsert
  right
  unfold typesFoundOf at h
  have := (foldl_setInsert (fun record : RelationalCohesionRecordView => record.typeHash)
    (moduleRecords db path) [] List.nodup_nil).2 k
  rw [this] at h
  simpa using h

/-- The size of `typesFound` is N. -/
theorem typesFoundOf_length (db : RelationalTables) (path : String) :
    (typesFoundOf db path).length = moduleTypeCount db path := by
  obtain ⟨hnd, hmem⟩ :=
    foldl_setInsert (fun record : RelationalCohesionRecordView => record.typeHash)
      (moduleRecords db path) [] List.nodup_nil
  unfold typesFoundOf moduleTypeCount
  rw [← List.toFinset_card_of_nodup hnd]
  congr 1
  ext k
  simp only [List.mem_toFinset]
  rw [hmem k]
  simp

/-- A step of `checkTypes` completes when every type in `typesFound` has a
defining path. -/
theorem checkTypesStep_isSome (typesFound : List Nat)
    (typeDefinitionPaths : List (Nat × String))
    (hkeys : ∀ k ∈ typesFound, (mapFind typeDefinitionPaths k).isSome = true)
    (acc : List (String × Nat) × Nat) (item : TypeUsage) :
    (checkTypesStep typesFound typeDefinitionPaths acc item).isSome = true := by
  unfold checkTypesStep
  split
  · rename_i hmem
    have := hkeys item.typeHash hmem
    cases hf : mapFind typeDefinitionPaths item.typeHash with
    | none => rw [hf] at this; exact absurd this (by simp)
    | some p => simp only; split <;> rfl
  · rfl

/-- A loop of total steps completes. -/
theorem foldlM_isSome {α β : Type} (f : β → α → Option β)
    (hf : ∀ b a, (f b a).isSome = true) (l : List α) :
    ∀ b, (l.foldlM f b).isSome = true := by
  induction l with
  | nil => intro b; rfl
  | cons a t ih =>
    intro b
    rw [List.foldlM_cons]
    obtain ⟨b1, hb1⟩ := Option.isSome_iff_exists.mp (hf b a)
    rw [hb1]
    exact ih b1

/-- The four scans of a module complete: `typeDefinitionPaths.at` never
throws. -/
theorem moduleRelations_isSome (db : RelationalTables) (path : String) :
    (moduleRelations db path).isSome = true := by
  have hstep := checkTypesStep_isSome (typesFoundOf db path) (typeDefinitionPathsOf db path)
    (typesFound_has_definitionPath db path)
  have hscan : ∀ table acc,
      (checkTypes db.like table path (typesFoundOf db path)
        (typeDefinitionPathsOf db path) acc).isSome = true := by
    intro table acc
    unfold checkTypes
    exact foldlM_isSome _ hstep _ acc
  unfold moduleRelations
  obtain ⟨a1, h1⟩ := Option.isSome_iff_exists.mp (hscan db.functionView ([], 0))
  obtain ⟨a2, h2⟩ := Option.isSome_iff_exists.mp (hscan db.parameterView a1)
  obtain ⟨a3, h3⟩ := Option.isSome_iff_exists.mp (hscan db.localView a2)
  simp only [h1, h2, h3, Option.some_bind]
  exact hscan db.variableView a3

/-- A transaction that persists one record per element, when each element
yields a record: the records come in the order of the elements. -/
theorem foldlM_persist {α β : Type} (f : α → Option β)
    (l : List α) (hf : ∀ a ∈ l, (f a).isSome = true) :
    ∀ store : List β, ∃ recs : List β,
      l.foldlM (fun st a => (f a).map fun r => st ++ [r]) store = some (store ++ recs) ∧
      recs.length = l.length ∧
      ∀ (i : Nat) (a : α), l[i]? = some a → recs[i]? = f a := by
  induction l with
  | nil => intro store; exact ⟨[], by simp, rfl, by simp⟩
  | cons a t ih =>
    intro store
    obtain ⟨r, hr⟩ := Option.isSome_iff_exists.mp (hf a (List.mem_cons_self a t))
    obtain ⟨recs, h1, h2, h3⟩ :=
      ih (fun x hx => hf x (List.mem_cons_of_mem a hx)) (store ++ [r])
    refine ⟨r :: recs, ?_, by simp [h2], ?_⟩
    · rw [List.foldlM_cons, hr]
      simp only [Option.map_some', Option.some_bind, Option.bind_eq_bind]
      rw [h1]
      simp
    · intro i x hx
      cases i with
      | zero =>
        simp only [List.getElem?_cons_zero, Option.some.injEq] at hx
        subst hx
        simp [hr]
      | succ j =>
        simp only [List.getElem?_cons_succ] at hx
        simp only [List.getElem?_cons_succ]
        exact h3 j x hx

/-- Claim C8. For every module path with N types, 0 < N (and N below 2^32, the
range of the `uint` that holds it), `relationalCohesion` completes and persists
one record per module path, in order; the record of the module is a
`RELATIONAL_COHESION` record on the module's file id whose value is
(R + 1) / N, with R the relationship count the four `checkTypes` scans return;
N = 3 and R = 2 give exactly 1.0. -/
theorem relationalCohesion_value (db : RelationalTables) (moduleList : Option (List String))
    (inputPaths : List String) (store : List CppFileMetrics) (i : Nat) (path : String)
    (hpath : (modulePaths db moduleList inputPaths)[i]? = some path)
    (hN : 0 < moduleTypeCount db path) (hN32 : moduleTypeCount db path < 2 ^ 32) :
    ∃ (recs : List CppFileMetrics) (rel : List (String × Nat)) (R : Nat),
      relationalCohesion db moduleList inputPaths store = some (store ++ recs) ∧
      recs.length = (modulePaths db moduleList inputPaths).length ∧
      moduleRelations db path = some (rel, R) ∧
      recs[i]? = some
        { file := (mapFind (moduleIds db (modulePaths db moduleList inputPaths)) path).getD 0
          type := FileMetricType.RELATIONAL_COHESION
          value := Dbl.fin (((R : ℚ) + 1) / (moduleTypeCount db path : ℚ)) } ∧
      (moduleTypeCount db path = 3 → R = 2 →
        recs[i]? = some
          { file := (mapFind (moduleIds db (modulePaths db moduleList inputPaths)) path).getD 0
            type := FileMetricType.RELATIONAL_COHESION
            value := Dbl.fin 1 }) := by
  have htotal : ∀ p ∈ modulePaths db moduleList inputPaths,
      (relationalCohesionModule db (moduleIds db (modulePaths db moduleList inputPaths))
        p).isSome = true := by
    intro p _
    unfold relationalCohesionModule
    rw [Option.isSome_map']
    exact moduleRelations_isSome db p
  obtain ⟨recs, h1, h2, h3⟩ := foldlM_persist
    (relationalCohesionModule db (moduleIds db (modulePaths db moduleList inputPaths)))
    (modulePaths db moduleList inputPaths) htotal store
  obtain ⟨⟨rel, R⟩, hrel⟩ := Option.isSome_iff_exists.mp (moduleRelations_isSome db path)
  have hq : (moduleTypeCount db path : ℚ) ≠ 0 := by
    have : moduleTypeCount db path ≠ 0 := by omega
    exact_mod_cast this
  have hrec : recs[i]? = some
      { file := (mapFind (moduleIds db (modulePaths db moduleList inputPaths)) path).getD 0
        type := FileMetricType.RELATIONAL_COHESION
        value := Dbl.fin (((R : ℚ) + 1) / (moduleTypeCount db path : ℚ)) } := by
    rw [h3 i path hpath]
    unfold relationalCohesionModule
    rw [hrel, typesFoundOf_length, Nat.mod_eq_of_lt hN32]
    simp [Dbl.ofNat, Dbl.add, Dbl.div, hq]
  refine ⟨recs, rel, R, h1, h2, hrel, hrec, ?_⟩
  intro h3N hR
  rw [hrec, h3N, hR]
  norm_num

/-- Witness of `relationalCohesion_value`: a module with three types and two
counted relationships gets the value 1.0. -/
theorem relationalCohesion_value_witness :
    (modulePaths threeTypesTwoRelations none ["/m"])[0]? = some "/m" ∧
    moduleTypeCount threeTypesTwoRelations "/m" = 3 ∧
    moduleRelations threeTypesTwoRelations "/m" =
      some ([("/m/b.h", 1), ("/m/c.h", 2)], 2) ∧
    ∃ recs : List CppFileMetrics,
      relationalCohesion threeTypesTwoRelations none ["/m"] [] = some ([] ++ recs) ∧
      recs[0]? = some ⟨5, FileMetricType.RELATIONAL_COHESION, Dbl.fin 1⟩ := by
  refine ⟨by decide, by decide, by decide, ?_⟩
  obtain ⟨recs, rel, R, h1, _, h3, _, h5⟩ :=
    relationalCohesion_value threeTypesTwoRelations none ["/m"] [] 0 "/m"
      (by decide) (by decide) (by decide)
  have hR : R = 2 := by
    have h : moduleRelations threeTypesTwoRelations "/m" =
        some ([("/m/b.h", 1), ("/m/c.h", 2)], 2) := by decide
    rw [h] at h3
    simp only [Option.some.injEq, Prod.mk.injEq] at h3
    exact h3.2.symm
  have hid : (mapFind (moduleIds threeTypesTwoRelations
      (modulePaths threeTypesTwoRelations none ["/m"])) "/m").getD 0 = 5 := by decide
  have h6 := h5 (by decide) hR
  rw [hid] at h6
  exact ⟨recs, h1, h6⟩

/-- Claim C1 fails on the code: in a module whose file `/m/a.cpp` uses two
types defined in `/m/b.h`, there are two distinct (file, type) pairs to count,
and `checkTypes` counts one: the test that `relationsFoundInFile` has no entry
for the file stops every later occurrence in that file. -/
theorem checkTypes_counts_one_per_file :
    distinctRelationPairs twoTypesOneFile "/m" = 2 ∧
    moduleRelations twoTypesOneFile "/m" = some ([("/m/a.cpp", 1)], 1) :=
  ⟨by decide, by decide⟩

/-- Claim C2 fails on the code: after a run that persisted entity-level records
and no file-level record, the file-id cache is empty, `cleanupDatabase` returns
true without entering its transaction, and the record and the cache entry of
AST node 1, whose file `a.cpp` is MODIFIED, remain. -/
theorem cleanupDatabase_skips_entities :
    entityOnlyState.fileIdCache = [] ∧
    cleanupDatabase modifiedFileContext entityOnlyState = some (true, entityOnlyState) ∧
    staleAstNode modifiedFileContext 1 = true ∧
    ⟨1, AstMetricType.MCCABE_FUNCTION, Dbl.fin 3⟩ ∈ entityOnlyState.astNodeMetrics ∧
    (1, 10) ∈ entityOnlyState.astNodeIdCache :=
  ⟨by decide, by decide, by decide, by decide, by decide⟩

/-! ### Type-level McCabe -/

/-- Among rows with distinct keys at most one row has a given key. -/
theorem filter_key_length_le_one {α : Type} (key : α → Nat) (k : Nat) (l : List α)
    (h : (l.map key).Nodup) : (l.filter (fun a => decide (key a = k))).length ≤ 1 := by
  induction l with
  | nil => simp
  | cons a t ih =>
    rw [List.map_cons, List.nodup_cons] at h
    by_cases hk : key a = k
    · have hnil : t.filter (fun a => decide (key a = k)) = [] := by
        rw [List.filter_eq_nil_iff]
        intro b hb hkb
        apply h.1
        rw [hk]
        exact List.mem_map.mpr ⟨b, hb, by simpa using hkb⟩
      simp [List.filter_cons, hk, hnil]
    · simp only [List.filter_cons, hk, decide_False]
      exact ih h.2

/-- The first row that passes a test is the head of the rows that pass it. -/
theorem find_eq_head_filter {α : Type} (p : α → Bool) (l : List α) :
    l.find? p = (l.filter p).head? := by
  induction l with
  | nil => rfl
  | cons a t ih =>
    by_cases h : p a = true
    · rw [List.find?_cons_of_pos _ h, List.filter_cons_of_pos h]; rfl
    · rw [List.find?_cons_of_neg _ h, List.filter_cons_of_neg h]; exact ih

/-- A `query_one` that at most one row answers does not throw, and returns the
first matching row. -/
theorem queryOne_eq_find {α : Type} (table : List α) (p : α → Bool)
    (h : (table.filter p).length ≤ 1) : queryOne table p = some (table.find? p) := by
  unfold queryOne
  rw [find_eq_head_filter]
  cases hf : table.filter p with
  | nil => rfl
  | cons a t =>
    cases t with
    | nil => rfl
    | cons b u => rw [hf] at h; simp at h

/-- With one entity per AST node, the entity `query_one` returns carries a tag
exactly when some entity of the AST node carries it. -/
theorem hasTag_find (entities : List CppEntity) (id : Nat) (tag : Tag)
    (h : (entities.map (fun e => e.astNodeId)).Nodup) :
    hasTag (entities.find? (fun e => decide (e.astNodeId = id))) tag =
      entities.any (fun e => decide (e.astNodeId = id) && decide (tag ∈ e.tags)) := by
  cases hf : entities.find? (fun e => decide (e.astNodeId = id)) with
  | none =>
    rw [List.find?_eq_none] at hf
    unfold hasTag
    symm
    rw [Bool.eq_false_iff]
    intro hany
    rw [List.any_eq_true] at hany
    obtain ⟨e, he, hp⟩ := hany
    simp only [Bool.and_eq_true, decide_eq_true_eq] at hp
    exact hf e he (by simpa using hp.1)
  | some e =>
    have hmem := List.mem_of_find?_eq_some hf
    have hid : e.astNodeId = id := by simpa using List.find?_some hf
    unfold hasTag
    by_cases ht : tag ∈ e.tags
    · simp only [ht, decide_True]
      symm
      rw [List.any_eq_true]
      exact ⟨e, hmem, by simp [hid, ht]⟩
    · simp only [ht, decide_False]
      symm
      rw [Bool.eq_false_iff]
      intro hany
      rw [List.any_eq_true] at hany
      obtain ⟨e1, he1, hp⟩ := hany
      simp only [Bool.and_eq_true, decide_eq_true_eq] at hp
      have : e1 = e :=
        List.inj_on_of_nodup_map h he1 hmem (by rw [hp.1, hid])
      exact ht (this ▸ hp.2)

/-- The sum of two unsigned values converts back to `unsigned int` when it is
below 2^32. -/
theorem toUnsigned_add (a n : Nat) (h : a + n < 2 ^ 32) :
    toUnsigned (Dbl.add (Dbl.ofNat a) (Dbl.ofNat n)) = some (a + n) := by
  unfold toUnsigned Dbl.ofNat Dbl.add
  have h1 : (-1 : ℚ) < (a : ℚ) + (n : ℚ) := by
    have : (0 : ℚ) ≤ (a : ℚ) + (n : ℚ) := by positivity
    linarith
  have h2 : (a : ℚ) + (n : ℚ) < 2 ^ 32 := by exact_mod_cast h
  simp only [h1, h2, and_self, if_true]
  have h3 : Rat.floor ((a : ℚ) + (n : ℚ)) = ((a + n : ℕ) : ℤ) := by
    have : ((a : ℚ) + (n : ℚ)) = ((a + n : ℕ) : ℚ) := by push_cast; ring
    rw [this]
    exact (Int.floor_natCast (a + n) : ⌊((a + n : ℕ) : ℚ)⌋ = ((a + n : ℕ) : ℤ))
  rw [h3]
  exact congrArg some (Int.toNat_natCast (a + n))

/-- Adding unsigned values to an unsigned value gives an unsigned value that is
not smaller. -/
theorem foldl_add_ofNat (l : List Dbl) (hl : ∀ d ∈ l, ∃ n : Nat, d = Dbl.ofNat n) :
    ∀ a : Nat, ∃ k : Nat, l.foldl Dbl.add (Dbl.ofNat a) = Dbl.ofNat (a + k) := by
  induction l with
  | nil => intro a; exact ⟨0, rfl⟩
  | cons d t ih =>
    intro a
    obtain ⟨n, hn⟩ := hl d (List.mem_cons_self d t)
    obtain ⟨k, hk⟩ := ih (fun x hx => hl x (List.mem_cons_of_mem d hx)) (a + n)
    refine ⟨n + k, ?_⟩
    rw [List.foldl_cons, hn]
    have : Dbl.add (Dbl.ofNat a) (Dbl.ofNat n) = Dbl.ofNat (a + n) := by
      simp [Dbl.add, Dbl.ofNat]
    rw [this, hk, Nat.add_assoc]

/-- Conversion of unsigned integers to `double` is injective. -/
theorem ofNat_injective (a b : Nat) (h : Dbl.ofNat a = Dbl.ofNat b) : a = b := by
  unfold Dbl.ofNat at h
  have := Dbl.fin.inj h
  exact_mod_cast this

/-- In a well-formed store the persisted value of a function definition is an
unsigned integer. -/
theorem persistedMcCabe_ofNat (db : McCabeTables) (hwf : db.wellFormed)
    (methodDef : CppAstNode) : ∃ n : Nat, persistedMcCabe db methodDef = Dbl.ofNat n := by
  unfold persistedMcCabe
  split
  · rename_i m hm
    have hp := List.find?_some hm
    simp only [decide_eq_true_eq] at hp
    exact hwf.2.2.2 m (List.mem_of_find?_eq_some hm) hp.2
  · exact ⟨0, by simp [Dbl.ofNat]⟩

/-- In a well-formed store at most one `MCCABE_FUNCTION` record answers the
metric query of `typeMcCabe`. -/
theorem metricQuery_length_le_one (db : McCabeTables) (hwf : db.wellFormed) (id : Nat) :
    (db.astNodeMetrics.filter (fun m =>
      decide (m.astNodeId = id ∧ m.type = AstMetricType.MCCABE_FUNCTION))).length ≤ 1 := by
  have h := filter_key_length_le_one (fun m : CppAstNodeMetrics => m.astNodeId) id
    (db.astNodeMetrics.filter (fun m => m.type = AstMetricType.MCCABE_FUNCTION)) hwf.2.2.1
  rw [List.filter_filter] at h
  have heq : (db.astNodeMetrics.filter (fun m =>
      decide (m.astNodeId = id ∧ m.type = AstMetricType.MCCABE_FUNCTION))) =
      db.astNodeMetrics.filter (fun a =>
        decide (a.astNodeId = id) && decide (a.type = AstMetricType.MCCABE_FUNCTION)) := by
    apply List.filter_congr
    intro m _
    simp
  rw [heq]
  exact h

/-- A step of the method loop, in a well-formed store: a method without an
eligible definition leaves the sum, and a method with one adds the persisted
value of the definition, if any. -/
theorem methodStep_eq (db : McCabeTables) (hwf : db.wellFormed) (acc : Nat)
    (method : CppMemberType) :
    methodStep db acc method =
      match (methodDefinition db method).filter
          (fun methodDef => !implicitDefinition db methodDef) with
      | none => some acc
      | some methodDef =>
        match db.astNodeMetrics.find? (fun m =>
            m.astNodeId = methodDef.id ∧ m.type = AstMetricType.MCCABE_FUNCTION) with
        | some m => toUnsigned (Dbl.add (Dbl.ofNat acc) m.value)
        | none => some acc := by
  unfold methodStep methodDefinition
  cases hnode : db.astNodes.find? (fun n => decide (n.id = method.memberAstNode)) with
  | none => rfl
  | some methodAstNode =>
    simp only [Option.some_bind]
    cases hdefs : methodDefs db methodAstNode with
    | nil => rfl
    | cons methodDef rest =>
      simp only [List.head?_cons]
      rw [queryOne_eq_find _ _
        (filter_key_length_le_one (fun e : CppEntity => e.astNodeId) methodDef.id
          db.entities hwf.2.1)]
      simp only [Option.some_bind]
      rw [hasTag_find db.entities methodDef.id Tag.Implicit hwf.2.1]
      rw [queryOne_eq_find _ _ (metricQuery_length_le_one db hwf methodDef.id)]
      simp only [Option.some_bind]
      by_cases himp : implicitDefinition db methodDef = true
      · have h1 : (db.entities.any (fun e =>
            decide (e.astNodeId = methodDef.id) && decide (Tag.Implicit ∈ e.tags))) = true :=
          himp
        simp [Option.filter, himp, h1]
      · have himp2 : implicitDefinition db methodDef = false := by simpa using himp
        have h1 : (db.entities.any (fun e =>
            decide (e.astNodeId = methodDef.id) && decide (Tag.Implicit ∈ e.tags))) = false :=
          himp2
        simp only [Option.filter, himp2, h1, Bool.not_false, if_true, Bool.false_eq_true,
          if_false]

/-- A method without an eligible definition leaves the sum. -/
theorem methodStep_skip (db : McCabeTables) (hwf : db.wellFormed) (acc : Nat)
    (method : CppMemberType)
    (h : (methodDefinition db method).filter
      (fun methodDef => !implicitDefinition db methodDef) = none) :
    methodStep db acc method = some acc := by
  rw [methodStep_eq db hwf, h]

/-- A method with an eligible definition adds the persisted value of the
definition, when the sum stays below 2^32. -/
theorem methodStep_count (db : McCabeTables) (hwf : db.wellFormed) (acc n : Nat)
    (method : CppMemberType) (methodDef : CppAstNode)
    (h : (methodDefinition db method).filter
      (fun methodDef => !implicitDefinition db methodDef) = some methodDef)
    (hn : persistedMcCabe db methodDef = Dbl.ofNat n) (hlt : acc + n < 2 ^ 32) :
    methodStep db acc method = some (acc + n) := by
  rw [methodStep_eq db hwf, h]
  simp only
  unfold persistedMcCabe at hn
  cases hf : db.astNodeMetrics.find? (fun m =>
      decide (m.astNodeId = methodDef.id ∧ m.type = AstMetricType.MCCABE_FUNCTION)) with
  | none =>
    rw [hf] at hn
    simp only at hn
    have : n = 0 := by
      have h0 : Dbl.ofNat 0 = Dbl.ofNat n := by rw [← hn]; simp [Dbl.ofNat]
      exact (ofNat_injective 0 n h0).symm
    simp [this]
  | some m =>
    rw [hf] at hn
    simp only at hn
    simp only [hn]
    exact toUnsigned_add acc n hlt

/-- The method loop, in a well-formed store: when the sum of the persisted
values of the eligible definitions, added to the starting value, is an
unsigned integer below 2^32, the loop completes with it. -/
theorem methodLoop_sum (db : McCabeTables) (hwf : db.wellFormed)
    (l : List CppMemberType) :
    ∀ (acc total : Nat), total < 2 ^ 32 →
      ((l.filterMap fun method =>
          (methodDefinition db method).filter
            fun methodDef => !implicitDefinition db methodDef).map
        (persistedMcCabe db)).foldl Dbl.add (Dbl.ofNat acc) = Dbl.ofNat total →
      l.foldlM (methodStep db) acc = some total := by
  induction l with
  | nil =>
    intro acc total _ h
    simp only [List.filterMap_nil, List.map_nil, List.foldl_nil] at h
    rw [ofNat_injective acc total h]
    rfl
  | cons method t ih =>
    intro acc total hlt h
    rw [List.foldlM_cons]
    cases hd : (methodDefinition db method).filter
        (fun methodDef => !implicitDefinition db methodDef) with
    | none =>
      simp only [List.filterMap_cons, hd] at h
      rw [methodStep_skip db hwf acc method hd]
      exact ih acc total hlt h
    | some methodDef =>
      simp only [List.filterMap_cons, hd, List.map_cons, List.foldl_cons] at h
      obtain ⟨n, hn⟩ := persistedMcCabe_ofNat db hwf methodDef
      have hadd : Dbl.add (Dbl.ofNat acc) (Dbl.ofNat n) = Dbl.ofNat (acc + n) := by
        simp [Dbl.add, Dbl.ofNat]
      rw [hn, hadd] at h
      obtain ⟨k, hk⟩ := foldl_add_ofNat
        ((t.filterMap fun method =>
          (methodDefinition db method).filter
            fun methodDef => !implicitDefinition db methodDef).map (persistedMcCabe db))
        (by
          intro d hd2
          obtain ⟨x, _, hx⟩ := List.mem_map.mp hd2
          obtain ⟨m, hm⟩ := persistedMcCabe_ofNat db hwf x
          exact ⟨m, by rw [← hx, hm]⟩)
        (acc + n)
      rw [hk] at h
      have hle : acc + n + k = total := ofNat_injective _ _ h
      rw [methodStep_count db hwf acc n method methodDef hd hn (by omega)]
      refine ih (acc + n) total hlt ?_
      rw [hk, hle]

/-- The keys of a `std::map` after an assignment. -/
theorem keys_orderedAssign (m : List (Nat × Nat)) (k v k1 : Nat) :
    k1 ∈ (orderedAssign m k v).map Prod.fst ↔ k1 = k ∨ k1 ∈ m.map Prod.fst := by
  induction m with
  | nil => simp [orderedAssign]
  | cons a t ih =>
    obtain ⟨ka, va⟩ := a
    unfold orderedAssign
    by_cases h1 : k < ka
    · simp [h1]
    · by_cases h2 : k = ka
      · subst h2
        simp
      · simp only [h1, h2, if_false, List.map_cons, List.mem_cons, ih]
        tauto

/-- An assignment keeps the keys of a `std::map` in ascending order. -/
theorem orderedAssign_sorted (m : List (Nat × Nat)) (k v : Nat)
    (h : (m.map Prod.fst).Pairwise (fun a b => a < b)) :
    ((orderedAssign m k v).map Prod.fst).Pairwise (fun a b => a < b) := by
  induction m with
  | nil => simp [orderedAssign]
  | cons a t ih =>
    obtain ⟨ka, va⟩ := a
    rw [List.map_cons, List.pairwise_cons] at h
    unfold orderedAssign
    by_cases h1 : k < ka
    · simp only [h1, if_true, List.map_cons, List.pairwise_cons]
      refine ⟨?_, h.1, h.2⟩
      intro b hb
      rcases List.mem_cons.mp hb with rfl | hb
      · exact h1
      · exact Nat.lt_trans h1 (h.1 b hb)
    · by_cases h2 : k = ka
      · subst h2
        simp only [Nat.lt_irrefl, if_false, if_true, List.map_cons, List.pairwise_cons]
        exact ⟨h.1, h.2⟩
      · simp only [h1, h2, if_false, List.map_cons, List.pairwise_cons]
        refine ⟨?_, ih h.2⟩
        intro b hb
        rcases (keys_orderedAssign t k v b).mp hb with rfl | hb
        · omega
        · exact h.1 b hb

/-- The entries of a `std::map` after an assignment: the new entry, and the
entries of the other keys. -/
theorem mem_orderedAssign (m : List (Nat × Nat)) (k v : Nat)
    (h : (m.map Prod.fst).Pairwise (fun a b => a < b)) (x : Nat × Nat) :
    x ∈ orderedAssign m k v ↔ x = (k, v) ∨ (x ∈ m ∧ x.1 ≠ k) := by
  induction m with
  | nil => simp [orderedAssign]
  | cons a t ih =>
    obtain ⟨ka, va⟩ := a
    rw [List.map_cons, List.pairwise_cons] at h
    have hgt : ∀ y ∈ t, ka < y.1 := fun y hy => h.1 y.1 (List.mem_map.mpr ⟨y, hy, rfl⟩)
    unfold orderedAssign
    by_cases h1 : k < ka
    · simp only [h1, if_true, List.mem_cons]
      constructor
      · rintro (hx | hx | hx)
        · exact Or.inl hx
        · right
          refine ⟨Or.inl hx, ?_⟩
          rw [hx]; simp only; omega
        · right
          refine ⟨Or.inr hx, ?_⟩
          have := hgt x hx
          omega
      · rintro (hx | ⟨hx | hx, _⟩)
        · exact Or.inl hx
        · exact Or.inr (Or.inl hx)
        · exact Or.inr (Or.inr hx)
    · by_cases h2 : k = ka
      · subst h2
        simp only [Nat.lt_irrefl, if_false, if_true, List.mem_cons]
        constructor
        · rintro (hx | hx)
          · exact Or.inl hx
          · right
            refine ⟨Or.inr hx, ?_⟩
            have := hgt x hx
            omega
        · rintro (hx | ⟨hx | hx, hne⟩)
          · exact Or.inl hx
          · rw [hx] at hne; exact absurd rfl hne
          · exact Or.inr hx
      · simp only [h1, h2, if_false, List.mem_cons, ih h.2]
        constructor
        · rintro (hx | hx | ⟨hx, hne⟩)
          · right
            refine ⟨Or.inl hx, ?_⟩
            rw [hx]; simp only; omega
          · exact Or.inl hx
          · exact Or.inr ⟨Or.inr hx, hne⟩
        · rintro (hx | ⟨hx | hx, hne⟩)
          · exact Or.inr (Or.inl hx)
          · exact Or.inl hx
          · exact Or.inr (Or.inr ⟨hx, hne⟩)

/-- In a map with ascending keys, the entries of a key are the one entry that
has it. -/
theorem filter_key_of_sorted (m : List (Nat × Nat)) (k v : Nat)
    (h : (m.map Prod.fst).Pairwise (fun a b => a < b)) (hmem : (k, v) ∈ m) :
    m.filter (fun kv => decide (kv.1 = k)) = [(k, v)] := by
  induction m with
  | nil => exact absurd hmem (List.not_mem_nil _)
  | cons a t ih =>
    rw [List.map_cons, List.pairwise_cons] at h
    have hgt : ∀ y ∈ t, a.1 < y.1 := fun y hy => h.1 y.1 (List.mem_map.mpr ⟨y, hy, rfl⟩)
    rcases List.mem_cons.mp hmem with hx | hx
    · subst hx
      have hnil : t.filter (fun kv => decide (kv.1 = k)) = [] := by
        rw [List.filter_eq_nil_iff]
        intro y hy hky
        have := hgt y hy
        simp only [decide_eq_true_eq] at hky
        simp only at this
        omega
      simp [List.filter_cons, hnil]
    · have hne : ¬ a.1 = k := by
        have := hgt (k, v) hx
        simp only at this
        omega
      simp only [List.filter_cons, hne, decide_False, Bool.false_eq_true, if_false]
      exact ih h.2 hx

/-- A step of the type loop, in a well-formed store: the map is touched only
for a type definition that is rooted under an input path and is not a template
instantiation. -/
theorem typeStep_eq (db : McCabeTables) (hwf : db.wellFormed) (inputPaths : List String)
    (mcValues : List (Nat × Nat)) (type : CppAstNode) :
    typeStep db inputPaths mcValues type =
      if eligibleType db inputPaths type = true then
        ((typeMethods db type).foldlM (methodStep db) 0).map fun value =>
          orderedAssign mcValues type.id value
      else some mcValues := by
  unfold typeStep eligibleType
  cases hfile : db.files.find? (fun f => decide (f.id = type.file)) with
  | none => simp
  | some typeFile =>
    simp only
    by_cases hroot : db.isRootedUnderAnyOf inputPaths typeFile.path = true
    · rw [queryOne_eq_find _ _
        (filter_key_length_le_one (fun e : CppEntity => e.astNodeId) type.id
          db.entities hwf.2.1)]
      simp only [Option.some_bind]
      rw [hasTag_find db.entities type.id Tag.TemplateInstantiation hwf.2.1]
      cases hany : db.entities.any (fun e =>
          decide (e.astNodeId = type.id) && decide (Tag.TemplateInstantiation ∈ e.tags)) with
      | true => simp [hroot]
      | false => simp [hroot]
    · simp [hroot]

/-- The type loop, in a well-formed store where the sum of every eligible type
fits an `unsigned int`: it completes, keeps the map in ascending key order, and
leaves for each eligible type of the loop one entry, with the sum of the
type. -/
theorem typeLoop_entries (db : McCabeTables) (hwf : db.wellFormed)
    (inputPaths : List String) (l : List CppAstNode) :
    (l.map (fun n => n.id)).Nodup →
    (∀ t ∈ l, eligibleType db inputPaths t = true →
      ∃ n : Nat, n < 2 ^ 32 ∧ typeMcCabeSum db t = Dbl.ofNat n) →
    ∀ m : List (Nat × Nat), (m.map Prod.fst).Pairwise (fun a b => a < b) →
      ∃ m1 : List (Nat × Nat),
        l.foldlM (typeStep db inputPaths) m = some m1 ∧
        (m1.map Prod.fst).Pairwise (fun a b => a < b) ∧
        ∀ k v : Nat, (k, v) ∈ m1 ↔
          (((k, v) ∈ m ∧ ∀ t ∈ l, eligibleType db inputPaths t = true → t.id ≠ k) ∨
           ∃ t ∈ l, eligibleType db inputPaths t = true ∧ t.id = k ∧
             typeMcCabeSum db t = Dbl.ofNat v) := by
  induction l with
  | nil =>
    intro _ _ m hm
    exact ⟨m, rfl, hm, fun k v => by simp⟩
  | cons t rest ih =>
    intro hnd hrange m hm
    rw [List.map_cons, List.nodup_cons] at hnd
    have hrest := ih hnd.2 (fun x hx => hrange x (List.mem_cons_of_mem t hx))
    rw [List.foldlM_cons, typeStep_eq db hwf]
    by_cases hel : eligibleType db inputPaths t = true
    · obtain ⟨n, hn32, hn⟩ := hrange t (List.mem_cons_self t rest) hel
      have hloop : (typeMethods db t).foldlM (methodStep db) 0 = some n := by
        apply methodLoop_sum db hwf (typeMethods db t) 0 n hn32
        have h0 : Dbl.ofNat 0 = Dbl.fin 0 := by simp [Dbl.ofNat]
        rw [h0]
        exact hn
      rw [if_pos hel, hloop]
      simp only [Option.map_some', Option.some_bind, Option.bind_eq_bind]
      obtain ⟨m1, h1, h2, h3⟩ := hrest (orderedAssign m t.id n) (orderedAssign_sorted m t.id n hm)
      refine ⟨m1, h1, h2, fun k v => ?_⟩
      rw [h3 k v, mem_orderedAssign m t.id n hm]
      constructor
      · rintro (⟨hx | ⟨hx, hne⟩, hall⟩ | ⟨t1, ht1, he1, hid1, hs1⟩)
        · right
          simp only [Prod.mk.injEq] at hx
          exact ⟨t, List.mem_cons_self t rest, hel, hx.1.symm, by rw [hn, hx.2]⟩
        · left
          refine ⟨hx, fun t1 ht1 he1 => ?_⟩
          rcases List.mem_cons.mp ht1 with rfl | ht1
          · exact fun h => hne h.symm
          · exact hall t1 ht1 he1
        · exact Or.inr ⟨t1, List.mem_cons_of_mem t ht1, he1, hid1, hs1⟩
      · rintro (⟨hx, hall⟩ | ⟨t1, ht1, he1, hid1, hs1⟩)
        · left
          refine ⟨Or.inr ⟨hx, ?_⟩, fun t1 ht1 he1 => hall t1 (List.mem_cons_of_mem t ht1) he1⟩
          exact fun h => hall t (List.mem_cons_self t rest) hel h.symm
        · rcases List.mem_cons.mp ht1 with rfl | ht1
          · left
            have hv : n = v := ofNat_injective n v (by rw [← hn, hs1])
            refine ⟨Or.inl (by rw [hid1, hv]), fun t2 ht2 _ hid2 => ?_⟩
            apply hnd.1
            rw [hid1, ← hid2]
            exact List.mem_map.mpr ⟨t2, ht2, rfl⟩
          · exact Or.inr ⟨t1, ht1, he1, hid1, hs1⟩
    · rw [if_neg hel]
      simp only [Option.some_bind, Option.bind_eq_bind]
      obtain ⟨m1, h1, h2, h3⟩ := hrest m hm
      refine ⟨m1, h1, h2, fun k v => ?_⟩
      rw [h3 k v]
      constructor
      · rintro (⟨hx, hall⟩ | ⟨t1, ht1, he1, hid1, hs1⟩)
        · left
          refine ⟨hx, fun t1 ht1 he1 => ?_⟩
          rcases List.mem_cons.mp ht1 with rfl | ht1
          · exact absurd he1 hel
          · exact hall t1 ht1 he1
        · exact Or.inr ⟨t1, List.mem_cons_of_mem t ht1, he1, hid1, hs1⟩
      · rintro (⟨hx, hall⟩ | ⟨t1, ht1, he1, hid1, hs1⟩)
        · exact Or.inl ⟨hx, fun t1 ht1 he1 => hall t1 (List.mem_cons_of_mem t ht1) he1⟩
        · rcases List.mem_cons.mp ht1 with rfl | ht1
          · exact absurd he1 hel
          · exact Or.inr ⟨t1, ht1, he1, hid1, hs1⟩

/-- A loop that persists one record per entry appends the records of the
entries in order. -/
theorem foldl_persist_one {α β : Type} (g : α → β) (l : List α) :
    ∀ store : List β, l.foldl (fun st a => st ++ [g a]) store = store ++ l.map g := by
  induction l with
  | nil => intro store; simp
  | cons a t ih => intro store; simp [ih]

/-- Claim C6. In a well-formed store (unique AST node ids, at most one entity
and one `MCCABE_FUNCTION` record per AST node, unsigned `MCCABE_FUNCTION`
values) where the sum of every eligible type fits the `unsigned int` that
accumulates it, `typeMcCabe` completes and persists, for every type definition
that is rooted under an input path and is not a template instantiation, exactly
one record keyed by the AST node id of the type: a `MCCABE_TYPE` record whose
value is the sum, over the method members whose first-returned function
definition exists and is not tagged Implicit, of the persisted
`MCCABE_FUNCTION` value of that definition (0 when it has none); the value is 0
when the type has no eligible method; and every record it persists is such a
record of such a type. -/
theorem typeMcCabe_sum (db : McCabeTables) (inputPaths : List String)
    (hwf : db.wellFormed)
    (hrange : ∀ t ∈ typeDefinitions db, eligibleType db inputPaths t = true →
      ∃ n : Nat, n < 2 ^ 32 ∧ typeMcCabeSum db t = Dbl.ofNat n) :
    ∃ recs : List CppAstNodeMetrics,
      typeMcCabe db inputPaths = some (db.astNodeMetrics ++ recs) ∧
      (∀ t ∈ typeDefinitions db, eligibleType db inputPaths t = true →
        recs.filter (fun r => decide (r.astNodeId = t.id)) =
            [{ astNodeId := t.id
               type := AstMetricType.MCCABE_TYPE
               value := typeMcCabeSum db t }] ∧
        (eligibleMethodDefs db t = [] → typeMcCabeSum db t = Dbl.fin 0)) ∧
      (∀ r ∈ recs, r.type = AstMetricType.MCCABE_TYPE ∧
        ∃ t ∈ typeDefinitions db, eligibleType db inputPaths t = true ∧
          r.astNodeId = t.id) := by
  have hnd : ((typeDefinitions db).map (fun n => n.id)).Nodup := by
    unfold typeDefinitions
    exact List.Nodup.sublist (List.Sublist.map _ (List.filter_sublist _)) hwf.1
  obtain ⟨m1, h1, h2, h3⟩ :=
    typeLoop_entries db hwf inputPaths (typeDefinitions db) hnd hrange [] (by simp)
  refine ⟨m1.map (fun mcValue =>
      { astNodeId := mcValue.1
        type := AstMetricType.MCCABE_TYPE
        value := Dbl.ofNat mcValue.2 }), ?_, ?_, ?_⟩
  · unfold typeMcCabe
    rw [h1]
    simp only [Option.map_some']
    rw [foldl_persist_one]
  · intro t ht hel
    obtain ⟨n, _, hn⟩ := hrange t ht hel
    have hmem : (t.id, n) ∈ m1 := (h3 t.id n).mpr (Or.inr ⟨t, ht, hel, rfl, hn⟩)
    refine ⟨?_, ?_⟩
    · rw [List.filter_map]
      have hf : m1.filter ((fun r : CppAstNodeMetrics => decide (r.astNodeId = t.id)) ∘
          (fun mcValue : Nat × Nat =>
            ({ astNodeId := mcValue.1
               type := AstMetricType.MCCABE_TYPE
               value := Dbl.ofNat mcValue.2 } : CppAstNodeMetrics))) =
          m1.filter (fun kv => decide (kv.1 = t.id)) := rfl
      rw [hf, filter_key_of_sorted m1 t.id n h2 hmem, hn]
      rfl
    · intro hnone
      unfold typeMcCabeSum
      rw [hnone]
      rfl
  · intro r hr
    obtain ⟨⟨k, v⟩, hkv, rfl⟩ := List.mem_map.mp hr
    refine ⟨rfl, ?_⟩
    rcases (h3 k v).mp hkv with ⟨hnil, _⟩ | ⟨t, ht, hel, hid, _⟩
    · exact absurd hnil (List.not_mem_nil _)
    · exact ⟨t, ht, hel, hid.symm⟩

/-- The sample store is well-formed. -/
theorem sampleMcCabeTables_wellFormed : sampleMcCabeTables.wellFormed := by
  refine ⟨by decide, by decide, by decide, ?_⟩
  intro m hm _
  simp only [sampleMcCabeTables, List.mem_cons, List.mem_singleton, List.not_mem_nil,
    or_false] at hm
  rcases hm with rfl | rfl | rfl | rfl | rfl
  · exact ⟨3, by simp [Dbl.ofNat]⟩
  · exact ⟨2, by simp [Dbl.ofNat]⟩
  · exact ⟨7, by simp [Dbl.ofNat]⟩
  · exact ⟨1, by simp [Dbl.ofNat]⟩
  · exact ⟨4, by simp [Dbl.ofNat]⟩

/-- The sums of the sample store: 5 for class `A`, 0 for class `B`. -/
theorem sampleMcCabeTables_sums :
    typeMcCabeSum sampleMcCabeTables ⟨1, 100, SymbolType.Type, AstType.Definition, 10⟩ =
      Dbl.ofNat 5 ∧
    typeMcCabeSum sampleMcCabeTables ⟨2, 200, SymbolType.Type, AstType.Definition, 10⟩ =
      Dbl.ofNat 0 := by
  have h1 : (eligibleMethodDefs sampleMcCabeTables
      ⟨1, 100, SymbolType.Type, AstType.Definition, 10⟩).map
      (persistedMcCabe sampleMcCabeTables) = [Dbl.fin 3, Dbl.fin 2] := by decide
  have h2 : (eligibleMethodDefs sampleMcCabeTables
      ⟨2, 200, SymbolType.Type, AstType.Definition, 10⟩).map
      (persistedMcCabe sampleMcCabeTables) = [] := by decide
  unfold typeMcCabeSum
  rw [h1, h2]
  constructor
  · simp only [Dbl.sum, List.foldl_cons, List.foldl_nil, Dbl.add, Dbl.ofNat]
    norm_num
  · simp [Dbl.sum, Dbl.ofNat]

/-- The sums of the eligible types of the sample store fit an `unsigned int`. -/
theorem sampleMcCabeTables_range :
    ∀ t ∈ typeDefinitions sampleMcCabeTables,
      eligibleType sampleMcCabeTables ["/src"] t = true →
      ∃ n : Nat, n < 2 ^ 32 ∧ typeMcCabeSum sampleMcCabeTables t = Dbl.ofNat n := by
  intro t ht hel
  have hdefs : typeDefinitions sampleMcCabeTables =
      [ ⟨1, 100, SymbolType.Type, AstType.Definition, 10⟩,
        ⟨2, 200, SymbolType.Type, AstType.Definition, 10⟩,
        ⟨3, 300, SymbolType.Type, AstType.Definition, 10⟩,
        ⟨4, 400, SymbolType.Type, AstType.Definition, 11⟩ ] := by decide
  rw [hdefs] at ht
  simp only [List.mem_cons, List.mem_singleton, List.not_mem_nil, or_false] at ht
  rcases ht with rfl | rfl | rfl | rfl
  · exact ⟨5, by norm_num, sampleMcCabeTables_sums.1⟩
  · exact ⟨0, by norm_num, sampleMcCabeTables_sums.2⟩
  · exact absurd hel (by decide)
  · exact absurd hel (by decide)

/-- Witness of `typeMcCabe_sum`: in the sample store class `A` gets the record
with value 3 + 2, class `B` the record with value 0, and the template
instantiation and the library class get none. -/
theorem typeMcCabe_sum_witness :
    sampleMcCabeTables.wellFormed ∧
    (∀ t ∈ typeDefinitions sampleMcCabeTables,
      eligibleType sampleMcCabeTables ["/src"] t = true →
      ∃ n : Nat, n < 2 ^ 32 ∧ typeMcCabeSum sampleMcCabeTables t = Dbl.ofNat n) ∧
    ∃ recs : List CppAstNodeMetrics,
      typeMcCabe sampleMcCabeTables ["/src"] =
        some (sampleMcCabeTables.astNodeMetrics ++ recs) ∧
      recs.filter (fun r => decide (r.astNodeId = 1)) =
        [⟨1, AstMetricType.MCCABE_TYPE, Dbl.ofNat 5⟩] ∧
      ∀ r ∈ recs, r.astNodeId ≠ 3 ∧ r.astNodeId ≠ 4 := by
  refine ⟨sampleMcCabeTables_wellFormed, sampleMcCabeTables_range, ?_⟩
  obtain ⟨recs, h1, h2, h3⟩ :=
    typeMcCabe_sum sampleMcCabeTables ["/src"] sampleMcCabeTables_wellFormed
      sampleMcCabeTables_range
  refine ⟨recs, h1, ?_, ?_⟩
  · have := (h2 ⟨1, 100, SymbolType.Type, AstType.Definition, 10⟩ (by decide) (by decide)).1
    rw [sampleMcCabeTables_sums.1] at this
    exact this
  · intro r hr
    obtain ⟨_, t, ht, hel, hid⟩ := h3 r hr
    have hdefs : typeDefinitions sampleMcCabeTables =
        [ ⟨1, 100, SymbolType.Type, AstType.Definition, 10⟩,
          ⟨2, 200, SymbolType.Type, AstType.Definition, 10⟩,
          ⟨3, 300, SymbolType.Type, AstType.Definition, 10⟩,
          ⟨4, 400, SymbolType.Type, AstType.Definition, 11⟩ ] := by decide
    rw [hdefs] at ht
    simp only [List.mem_cons, List.mem_singleton, List.not_mem_nil, or_false] at ht
    rcases ht with rfl | rfl | rfl | rfl
    · rw [hid]; exact ⟨by decide, by decide⟩
    · rw [hid]; exact ⟨by decide, by decide⟩
    · exact absurd hel (by decide)
    · exact absurd hel (by decide)

/-! ### Partitioned passes -/

/-- The partition bounds do not decrease. -/
theorem partitionBound_mono (taskCount partCount i : Nat) :
    partitionBound taskCount partCount i ≤ partitionBound taskCount partCount (i + 1) := by
  unfold partitionBound
  exact Nat.div_le_div_right (Nat.mul_le_mul_left taskCount (Nat.le_succ i))

/-- The last partition ends at the end of the tasks. -/
theorem partitionBound_last (taskCount partCount : Nat) (h : 1 ≤ partCount) :
    partitionBound taskCount partCount partCount = taskCount := by
  unfold partitionBound
  exact Nat.mul_div_cancel taskCount (by omega)

/-- The first `k` partitions, put end to end, are the tasks before the start of
partition `k`. -/
theorem flatten_partitions_take {α : Type} (tasks : List α) (partCount : Nat) :
    ∀ k : Nat,
      ((List.range k).map fun i =>
        (tasks.drop (partitionBound tasks.length partCount i)).take
          (partitionBound tasks.length partCount (i + 1) -
            partitionBound tasks.length partCount i)).flatten =
      tasks.take (partitionBound tasks.length partCount k) := by
  intro k
  induction k with
  | zero => simp [partitionBound]
  | succ k ih =>
    rw [List.range_succ, List.map_append, List.flatten_append, ih]
    simp only [List.map_cons, List.map_nil, List.flatten_cons, List.flatten_nil,
      List.append_nil]
    have hmono := partitionBound_mono tasks.length partCount k
    have hsplit : partitionBound tasks.length partCount (k + 1) =
        partitionBound tasks.length partCount k +
          (partitionBound tasks.length partCount (k + 1) -
            partitionBound tasks.length partCount k) := by omega
    conv_rhs => rw [hsplit]
    rw [List.take_add]

/-- The partitions, put end to end, are the tasks. -/
theorem flatten_parallelCalcMetric {α : Type} (tasks : List α) (partCount : Nat)
    (h : 1 ≤ partCount) : (parallelCalcMetric partCount tasks).flatten = tasks := by
  unfold parallelCalcMetric
  rw [flatten_partitions_take, partitionBound_last _ _ h, List.take_length]

/-- Claim C11. For every list of subjects, every thread count of at least 1 and
every multiplier of at least 1, the partitions dispatched are
`threadCount * multiplier` contiguous slices of the input, partition `i` going
from one bound to the next with the bounds starting at 0 and never decreasing
(so no two partitions overlap), and put end to end they are the input itself,
each subject once and in order; hence the subjects processed are the same for
every other multiplier. -/
theorem dispatchedJobs_partition {α : Type} (tasks : List α) (threadCount multiplier : Nat)
    (hthreads : 1 ≤ threadCount) (hmultiplier : 1 ≤ multiplier) :
    (dispatchedJobs threadCount multiplier tasks).flatten = tasks ∧
    (dispatchedJobs threadCount multiplier tasks).length = threadCount * multiplier ∧
    (∀ i : Nat, i < threadCount * multiplier →
      (dispatchedJobs threadCount multiplier tasks)[i]? =
        some ((tasks.drop (partitionBound tasks.length (threadCount * multiplier) i)).take
          (partitionBound tasks.length (threadCount * multiplier) (i + 1) -
            partitionBound tasks.length (threadCount * multiplier) i)) ∧
      partitionBound tasks.length (threadCount * multiplier) i ≤
        partitionBound tasks.length (threadCount * multiplier) (i + 1)) ∧
    partitionBound tasks.length (threadCount * multiplier) 0 = 0 ∧
    partitionBound tasks.length (threadCount * multiplier) (threadCount * multiplier) =
      tasks.length ∧
    ∀ other : Nat, 1 ≤ other →
      (dispatchedJobs threadCount other tasks).flatten =
        (dispatchedJobs threadCount multiplier tasks).flatten := by
  have hP : 1 ≤ threadCount * multiplier := Nat.mul_le_mul hthreads hmultiplier
  refine ⟨flatten_parallelCalcMetric tasks _ hP, by simp [dispatchedJobs, parallelCalcMetric],
    ?_, by simp [partitionBound], partitionBound_last _ _ hP, ?_⟩
  · intro i hi
    refine ⟨?_, partitionBound_mono _ _ i⟩
    unfold dispatchedJobs parallelCalcMetric
    rw [List.getElem?_map, List.getElem?_range hi]
    rfl
  · intro other hother
    unfold dispatchedJobs
    rw [flatten_parallelCalcMetric tasks _ (Nat.mul_le_mul hthreads hother),
      flatten_parallelCalcMetric tasks _ hP]

/-- Witness of `dispatchedJobs_partition`: five subjects, two threads and a
multiplier of two give four partitions. -/
theorem dispatchedJobs_partition_witness :
    (1 ≤ 2 ∧ 1 ≤ 2) ∧
    dispatchedJobs 2 2 [10, 20, 30, 40, 50] = [[10], [20], [30], [40, 50]] ∧
    (dispatchedJobs 2 2 [10, 20, 30, 40, 50]).flatten = [10, 20, 30, 40, 50] :=
  ⟨by decide, by decide,
    (dispatchedJobs_partition [10, 20, 30, 40, 50] 2 2 (by decide) (by decide)).1⟩

/-! ### Ranges of the cohesion values -/

/-- The node query collects at most F distinct fields of the type for a
method. -/
theorem queriedFieldSet_card_le (db : CohesionTables) (type : CohesionCppRecordView)
    (method : CohesionCppMethodView) :
    (queriedFieldSet db type method).card ≤ distinctFieldCount db type := by
  unfold queriedFieldSet distinctFieldCount
  exact Finset.card_le_card Finset.inter_subset_right

/-- A method uses at most F distinct fields of the type. -/
theorem usedFieldSet_card_le (db : CohesionTables) (type : CohesionCppRecordView)
    (method : CohesionCppMethodView) :
    (usedFieldSet db type method).card ≤ distinctFieldCount db type := by
  unfold usedFieldSet distinctFieldCount
  exact Finset.card_le_card Finset.inter_subset_right

/-- C is at most M * F. -/
theorem cohesionSum_le (db : CohesionTables) (type : CohesionCppRecordView) :
    cohesionSum db type ≤ (qualifyingMethods db type).length * distinctFieldCount db type := by
  unfold cohesionSum
  have h := List.sum_le_card_nsmul
    ((qualifyingMethods db type).map (fun method => (usedFieldSet db type method).card))
    (distinctFieldCount db type)
    (by
      intro x hx
      obtain ⟨m, _, rfl⟩ := List.mem_map.mp hx
      exact usedFieldSet_card_le db type m)
  simpa using h

/-- The value of `totalCohesion` is at most M * F. -/
theorem queriedCohesionSum_le (db : CohesionTables) (type : CohesionCppRecordView) :
    queriedCohesionSum db type ≤ (qualifyingMethods db type).length * distinctFieldCount db type := by
  unfold queriedCohesionSum
  have h := List.sum_le_card_nsmul
    ((qualifyingMethods db type).map (fun method => (queriedFieldSet db type method).card))
    (distinctFieldCount db type)
    (by
      intro x hx
      obtain ⟨m, _, rfl⟩ := List.mem_map.mp hx
      exact queriedFieldSet_card_le db type m)
  simpa using h

/-- Claim C13. For every type `lackOfCohesion` processes, the value of the
`LACK_OF_COHESION` record it persists is a number of the closed interval
[0, 1]; the reason is that each qualifying method uses at most F distinct
fields of the type, so that C is at most M * F, and so is the sum
`totalCohesion` that the source divides. -/
theorem lackOfCohesion_standard_range (db : CohesionTables) (type : CohesionCppRecordView) :
    cohesionSum db type ≤ (qualifyingMethods db type).length * distinctFieldCount db type ∧
    ((lackOfCohesionType db type).filter
        (fun r => r.type = AstMetricType.LACK_OF_COHESION)).all
      (fun r => Dbl.inInterval 0 1 r.value) = true ∧
    queriedCohesionSum db type ≤
      (qualifyingMethods db type).length * distinctFieldCount db type := by
  refine ⟨cohesionSum_le db type, ?_, queriedCohesionSum_le db type⟩
  rw [lackOfCohesionType_eq]
  simp only [List.filter_cons, decide_True, if_true, List.filter_nil,
    reduceCtorEq, decide_False, Bool.false_eq_true, if_false, List.all_cons, List.all_nil,
    Bool.and_true]
  by_cases ht : distinctFieldCount db type = 0 ∨ (qualifyingMethods db type).length = 0
  · rw [if_pos ht]
    simp [Dbl.inInterval]
  · rw [if_neg ht]
    have hF : 0 < distinctFieldCount db type := by omega
    have hM : 0 < (qualifyingMethods db type).length := by omega
    have hden : (0 : ℚ) <
        ((qualifyingMethods db type).length : ℚ) * (distinctFieldCount db type : ℚ) := by
      have h1 : (0 : ℚ) < ((qualifyingMethods db type).length : ℚ) := by exact_mod_cast hM
      have h2 : (0 : ℚ) < (distinctFieldCount db type : ℚ) := by exact_mod_cast hF
      exact mul_pos h1 h2
    have hle : (queriedCohesionSum db type : ℚ) ≤
        ((qualifyingMethods db type).length : ℚ) * (distinctFieldCount db type : ℚ) := by
      exact_mod_cast queriedCohesionSum_le db type
    have h0 : (0 : ℚ) ≤ (queriedCohesionSum db type : ℚ) /
        (((qualifyingMethods db type).length : ℚ) * (distinctFieldCount db type : ℚ)) :=
      div_nonneg (by positivity) (le_of_lt hden)
    have h1 : (queriedCohesionSum db type : ℚ) /
        (((qualifyingMethods db type).length : ℚ) * (distinctFieldCount db type : ℚ)) ≤ 1 :=
      (div_le_one hden).mpr hle
    simp only [Dbl.inInterval, Bool.and_eq_true, decide_eq_true_eq]
    constructor <;> linarith

/-- Claim C14. For every type that is trivial (F = 0 or M = 0) or has at least
two qualifying methods, the value of the `LACK_OF_COHESION_HS` record
`lackOfCohesion` persists is not NaN and is a number of the closed interval
[0, 2]. -/
theorem lackOfCohesion_hendersonSellers_range (db : CohesionTables)
    (type : CohesionCppRecordView)
    (h : distinctFieldCount db type = 0 ∨ (qualifyingMethods db type).length = 0 ∨
      2 ≤ (qualifyingMethods db type).length) :
    ((lackOfCohesionType db type).filter
        (fun r => r.type = AstMetricType.LACK_OF_COHESION_HS)).all
      (fun r => !decide (r.value = Dbl.nan) && Dbl.inInterval 0 2 r.value) = true := by
  rw [lackOfCohesionType_eq]
  simp only [List.filter_cons, decide_True, if_true, List.filter_nil,
    reduceCtorEq, decide_False, Bool.false_eq_true, if_false, List.all_cons, List.all_nil,
    Bool.and_true]
  by_cases ht : distinctFieldCount db type = 0 ∨ (qualifyingMethods db type).length = 0
  · rw [if_pos ht]
    simp [Dbl.inInterval]
  · rw [if_neg ht]
    have hM2 : 2 ≤ (qualifyingMethods db type).length := by
      rcases h with h | h | h
      · exact absurd (Or.inl h) ht
      · exact absurd (Or.inr h) ht
      · exact h
    have hne : ¬ (qualifyingMethods db type).length = 1 := by omega
    rw [if_neg hne]
    have hF : 0 < distinctFieldCount db type := by omega
    have hFq : (0 : ℚ) < (distinctFieldCount db type : ℚ) := by exact_mod_cast hF
    have hMq : (2 : ℚ) ≤ ((qualifyingMethods db type).length : ℚ) := by exact_mod_cast hM2
    have hle : (queriedCohesionSum db type : ℚ) ≤
        ((qualifyingMethods db type).length : ℚ) * (distinctFieldCount db type : ℚ) := by
      exact_mod_cast queriedCohesionSum_le db type
    have h0 : (0 : ℚ) ≤ (queriedCohesionSum db type : ℚ) / (distinctFieldCount db type : ℚ) :=
      div_nonneg (by positivity) (le_of_lt hFq)
    have h1 : (queriedCohesionSum db type : ℚ) / (distinctFieldCount db type : ℚ) ≤
        ((qualifyingMethods db type).length : ℚ) :=
      (div_le_iff₀ hFq).mpr hle
    have hden : (0 : ℚ) < ((qualifyingMethods db type).length : ℚ) - 1 := by linarith
    simp only [reduceCtorEq, decide_False, Bool.not_false, Bool.true_and, Dbl.inInterval,
      Bool.and_eq_true, decide_eq_true_eq]
    constructor
    · exact div_nonneg (by linarith) (le_of_lt hden)
    · rw [div_le_iff₀ hden]
      linarith

/-- Witness of `lackOfCohesion_hendersonSellers_range`: a type with two
qualifying methods. -/
theorem lackOfCohesion_hendersonSellers_range_witness :
    (distinctFieldCount twoMethodTables ⟨7, 1⟩ = 0 ∨
      (qualifyingMethods twoMethodTables ⟨7, 1⟩).length = 0 ∨
      2 ≤ (qualifyingMethods twoMethodTables ⟨7, 1⟩).length) ∧
    ((lackOfCohesionType twoMethodTables ⟨7, 1⟩).filter
        (fun r => r.type = AstMetricType.LACK_OF_COHESION_HS)).all
      (fun r => !decide (r.value = Dbl.nan) && Dbl.inInterval 0 2 r.value) = true :=
  ⟨by decide, lackOfCohesion_hendersonSellers_range twoMethodTables ⟨7, 1⟩ (by decide)⟩

/-! ### The node query of the cohesion pass -/

/-- The node query never looks at a column: it keeps the nodes of the file that
start on or after the start line and end on or before the end line. -/
theorem nodeQuery_eq_lines (method : CohesionCppMethodView) (start stop : Position)
    (node : CohesionCppAstNodeView) :
    nodeQuery method start stop node =
      (node.filePath == method.filePath && decide (start.line ≤ node.startLine) &&
        decide (node.endLine ≤ stop.line)) := by
  unfold nodeQuery
  by_cases h1 : start.line ≤ node.startLine
  · by_cases h2 : node.endLine ≤ stop.line
    · simp [h1, h2]
    · have : ¬ node.endLine = stop.line := by omega
      simp [h1, h2, this]
  · have : ¬ node.startLine = start.line := by omega
    simp [h1, this]

/-- Claim C15 fails on the code: a reference to a field that begins on the start
line of the method before its start column (line 1, column 2 against a body
that starts at line 1, column 10) is not within the span, yet the node query
returns it and it adds the field to the used fields of the method, so that the
type has C = 1 where the claim has C = 0. -/
theorem nodeQuery_examines_node_before_start :
    Position.lt ⟨1, 2⟩ ⟨1, 10⟩ = true ∧
    withinSpan ⟨7, "a.cpp", 1, 10, 3, 1⟩ ⟨1, 10⟩ ⟨3, 1⟩ ⟨100, "a.cpp", 1, 2, 1, 5⟩ = false ∧
    nodeQuery ⟨7, "a.cpp", 1, 10, 3, 1⟩ ⟨1, 10⟩ ⟨3, 1⟩ ⟨100, "a.cpp", 1, 2, 1, 5⟩ = true ∧
    usedFields earlyNodeTables (fieldHashesOf earlyNodeTables ⟨7, 1⟩)
      ⟨7, "a.cpp", 1, 10, 3, 1⟩ ⟨1, 10⟩ ⟨3, 1⟩ = [100] ∧
    methodLoop earlyNodeTables ⟨7, 1⟩ (fieldHashesOf earlyNodeTables ⟨7, 1⟩) = (1, 1) :=
  ⟨by decide, by decide, by decide, by decide, by decide⟩

/-! ### A module without types -/

/-- The record of a module in which no type is defined holds positive
infinity: the quotient (R + 1) / 0. -/
theorem relationalCohesionModule_zero (db : RelationalTables) (ids : List (String × Nat))
    (path : String) (hN : moduleTypeCount db path = 0) :
    relationalCohesionModule db ids path =
      some { file := (mapFind ids path).getD 0
             type := FileMetricType.RELATIONAL_COHESION
             value := Dbl.posInf } := by
  obtain ⟨⟨rel, R⟩, hrel⟩ := Option.isSome_iff_exists.mp (moduleRelations_isSome db path)
  unfold relationalCohesionModule
  rw [hrel, typesFoundOf_length, hN]
  have h1 : ¬ ((R : ℚ) + 1 = 0) := by positivity
  have h2 : (0 : ℚ) < (R : ℚ) + 1 := by positivity
  simp [Dbl.ofNat, Dbl.add, Dbl.div, Dbl.infOfSign, h1, h2]

/-- Claim C16 fails on the code: for the module `/empty`, under which no type is
defined (N = 0), `relationalCohesion` divides by zero and persists positive
infinity, which is neither 0.0 nor NaN. -/
theorem relationalCohesion_divides_by_zero :
    moduleTypeCount threeTypesTwoRelations "/empty" = 0 ∧
    relationalCohesion threeTypesTwoRelations emptyModuleList [] [] =
      some [⟨0, FileMetricType.RELATIONAL_COHESION, Dbl.posInf⟩] ∧
    Dbl.posInf ≠ Dbl.fin 0 ∧ Dbl.posInf ≠ Dbl.nan := by
  have hN : moduleTypeCount threeTypesTwoRelations "/empty" = 0 := by decide
  refine ⟨hN, ?_, by decide, by decide⟩
  have hpaths : modulePaths threeTypesTwoRelations emptyModuleList [] = ["/empty"] := by
    decide
  have hid : (mapFind (moduleIds threeTypesTwoRelations ["/empty"]) "/empty").getD 0 = 0 := by
    decide
  unfold relationalCohesion
  simp only [hpaths, List.foldlM_cons, List.foldlM_nil]
  rw [relationalCohesionModule_zero _ _ _ hN, hid]
  rfl

/-! ### One relationship per file -/

/-- When no entry passes a test, no entry is kept by the filter on it. -/
theorem filter_nil_of_find_isNone {α : Type} (p : α → Bool) (l : List α)
    (h : (l.find? p).isNone = true) : l.filter p = [] := by
  rw [Option.isNone_iff_eq_none, List.find?_eq_none] at h
  rw [List.filter_eq_nil_iff]
  exact h

/-- The `std::none_of` conjunct never changes a step of `checkTypes`. -/
theorem checkTypesStep_eq_withoutNoneOf (typesFound : List Nat)
    (typeDefinitionPaths : List (Nat × String)) :
    checkTypesStep typesFound typeDefinitionPaths =
      checkTypesStepWithoutNoneOf typesFound typeDefinitionPaths := by
  funext acc item
  unfold checkTypesStep checkTypesStepWithoutNoneOf
  split
  · split
    · rfl
    · rename_i definitionPath _
      by_cases hnone : (acc.1.find? (fun pair => decide (pair.1 = item.filePath))).isNone = true
      · have hnil := filter_nil_of_find_isNone _ _ hnone
        simp only [hnone, hnil, List.all_nil, and_true]
      · simp [hnone]
  · rfl

/-- What a step of `checkTypes` does when it completes: nothing, or it records
the file of the occurrence, which had no entry yet, and counts one. -/
theorem checkTypesStep_some (typesFound : List Nat)
    (typeDefinitionPaths : List (Nat × String))
    (acc acc1 : List (String × Nat) × Nat) (item : TypeUsage)
    (h : checkTypesStep typesFound typeDefinitionPaths acc item = some acc1) :
    acc1 = acc ∨
    (item.filePath ∉ acc.1.map Prod.fst ∧
      acc1 = (acc.1 ++ [(item.filePath, item.typeHash)], acc.2 + 1)) := by
  rw [checkTypesStep_eq_withoutNoneOf] at h
  unfold checkTypesStepWithoutNoneOf at h
  split at h
  · split at h
    · exact absurd h (by simp)
    · split at h
      · rename_i hcond
        right
        refine ⟨?_, (Option.some.inj h).symm⟩
        have hnone := hcond.2
        rw [Option.isNone_iff_eq_none, List.find?_eq_none] at hnone
        intro hmem
        obtain ⟨pair, hpair, hkey⟩ := List.mem_map.mp hmem
        exact hnone pair hpair (by simpa using hkey)
      · exact Or.inl (Option.some.inj h).symm
  · exact Or.inl (Option.some.inj h).symm

/-- The loop of `checkTypes` keeps three facts about the pair
`(relationsFoundInFile, relationsInModule)`: the counter is the number of
entries, no file has two entries, and every file with an entry passes a test
that the files of the scanned occurrences pass. -/
theorem checkTypes_invariant (typesFound : List Nat)
    (typeDefinitionPaths : List (Nat × String)) (P : String → Prop) (items : List TypeUsage) :
    (∀ item ∈ items, P item.filePath) →
    ∀ acc acc1 : List (String × Nat) × Nat,
      items.foldlM (checkTypesStep typesFound typeDefinitionPaths) acc = some acc1 →
      (acc.2 = acc.1.length ∧ (acc.1.map Prod.fst).Nodup ∧ ∀ f ∈ acc.1.map Prod.fst, P f) →
      (acc1.2 = acc1.1.length ∧ (acc1.1.map Prod.fst).Nodup ∧
        ∀ f ∈ acc1.1.map Prod.fst, P f) := by
  induction items with
  | nil =>
    intro _ acc acc1 h hinv
    have : acc = acc1 := by simpa using h
    exact this ▸ hinv
  | cons item t ih =>
    intro hP acc acc1 h hinv
    rw [List.foldlM_cons] at h
    cases hstep : checkTypesStep typesFound typeDefinitionPaths acc item with
    | none => rw [hstep] at h; exact absurd h (by simp)
    | some acc2 =>
      rw [hstep] at h
      apply ih (fun x hx => hP x (List.mem_cons_of_mem item hx)) acc2 acc1 h
      rcases checkTypesStep_some _ _ acc acc2 item hstep with rfl | ⟨hnew, rfl⟩
      · exact hinv
      · obtain ⟨h1, h2, h3⟩ := hinv
        refine ⟨by simp [h1], ?_, ?_⟩
        · simp only [List.map_append, List.map_cons, List.map_nil]
          exact List.nodup_append.mpr ⟨h2, List.nodup_singleton _, by
            intro x hx hx1
            have : x = item.filePath := by simpa using hx1
            exact hnew (this ▸ hx)⟩
        · intro f hf
          simp only [List.map_append, List.map_cons, List.map_nil, List.mem_append,
            List.mem_singleton] at hf
          rcases hf with hf | hf
          · exact h3 f hf
          · exact hf ▸ hP item (List.mem_cons_self item t)

/-- A duplicate-free list of elements of a list is at most as long as that list
has distinct elements. -/
theorem length_le_card_of_nodup (keys files : List String) (hnd : keys.Nodup)
    (hsub : ∀ f ∈ keys, f ∈ files) : keys.length ≤ files.toFinset.card := by
  rw [← List.toFinset_card_of_nodup hnd]
  apply Finset.card_le_card
  intro f hf
  rw [List.mem_toFinset] at hf ⊢
  exact hsub f hf

/-- Claim C17. In every module the four scans complete with a pair
`(relationsFoundInFile, R)` in which no file has two entries and R is the
number of entries, so R is at most the number of distinct files that hold a
usage-site occurrence of the module; a step on an occurrence whose file has an
entry changes nothing, whatever the type; and the scans without the
`std::none_of` conjunct return the same pair. -/
theorem checkTypes_one_relation_per_file (db : RelationalTables) (path : String) :
    (∃ (rel : List (String × Nat)) (R : Nat),
      moduleRelations db path = some (rel, R) ∧
      moduleRelationsWithoutNoneOf db path = some (rel, R) ∧
      R = rel.length ∧
      (rel.map Prod.fst).Nodup ∧
      R ≤ ((moduleUsages db path).map (fun item => item.filePath)).toFinset.card) ∧
    ∀ (typesFound : List Nat) (typeDefinitionPaths : List (Nat × String))
      (acc acc1 : List (String × Nat) × Nat) (item : TypeUsage),
      item.filePath ∈ acc.1.map Prod.fst →
      checkTypesStep typesFound typeDefinitionPaths acc item = some acc1 → acc1 = acc := by
  constructor
  · obtain ⟨⟨rel, R⟩, hrel⟩ := Option.isSome_iff_exists.mp (moduleRelations_isSome db path)
    have hsame : moduleRelationsWithoutNoneOf db path = moduleRelations db path := by
      unfold moduleRelationsWithoutNoneOf moduleRelations checkTypesWithoutNoneOf checkTypes
      simp only [checkTypesStep_eq_withoutNoneOf]
    have hscan : ∀ (table : List TypeUsage),
        (∀ item ∈ table, item ∈ db.functionView ++ db.parameterView ++ db.localView ++
          db.variableView) →
        ∀ acc acc1 : List (String × Nat) × Nat,
          checkTypes db.like table path (typesFoundOf db path) (typeDefinitionPathsOf db path)
            acc = some acc1 →
          (acc.2 = acc.1.length ∧ (acc.1.map Prod.fst).Nodup ∧
            ∀ f ∈ acc.1.map Prod.fst,
              f ∈ (moduleUsages db path).map (fun item => item.filePath)) →
          (acc1.2 = acc1.1.length ∧ (acc1.1.map Prod.fst).Nodup ∧
            ∀ f ∈ acc1.1.map Prod.fst,
              f ∈ (moduleUsages db path).map (fun item => item.filePath)) := by
      intro table htable acc acc1 h hinv
      unfold checkTypes at h
      refine checkTypes_invariant _ _
        (fun f => f ∈ (moduleUsages db path).map (fun item => item.filePath)) _ ?_ acc acc1 h hinv
      intro item hitem
      rw [List.mem_filter] at hitem
      refine List.mem_map.mpr ⟨item, ?_, rfl⟩
      unfold moduleUsages
      exact List.mem_filter.mpr ⟨htable item hitem.1, hitem.2⟩
    have hinv : R = rel.length ∧ (rel.map Prod.fst).Nodup ∧
        ∀ f ∈ rel.map Prod.fst,
          f ∈ (moduleUsages db path).map (fun item => item.filePath) := by
      unfold moduleRelations at hrel
      simp only at hrel
      cases h1 : checkTypes db.like db.functionView path (typesFoundOf db path)
          (typeDefinitionPathsOf db path) ([], 0) with
      | none => rw [h1] at hrel; exact absurd hrel (by simp)
      | some a1 =>
        rw [h1] at hrel
        simp only [Option.some_bind] at hrel
        cases h2 : checkTypes db.like db.parameterView path (typesFoundOf db path)
            (typeDefinitionPathsOf db path) a1 with
        | none => rw [h2] at hrel; exact absurd hrel (by simp)
        | some a2 =>
          rw [h2] at hrel
          simp only [Option.some_bind] at hrel
          cases h3 : checkTypes db.like db.localView path (typesFoundOf db path)
              (typeDefinitionPathsOf db path) a2 with
          | none => rw [h3] at hrel; exact absurd hrel (by simp)
          | some a3 =>
            rw [h3] at hrel
            simp only [Option.some_bind] at hrel
            have i1 := hscan db.functionView (fun x hx => by simp [hx]) ([], 0) a1 h1
              ⟨rfl, List.nodup_nil, by simp⟩
            have i2 := hscan db.parameterView (fun x hx => by simp [hx]) a1 a2 h2 i1
            have i3 := hscan db.localView (fun x hx => by simp [hx]) a2 a3 h3 i2
            exact hscan db.variableView (fun x hx => by simp [hx]) a3 (rel, R) hrel i3
    refine ⟨rel, R, hrel, by rw [hsame, hrel], hinv.1, hinv.2.1, ?_⟩
    rw [hinv.1, ← List.length_map rel Prod.fst]
    exact length_le_card_of_nodup _ _ hinv.2.1 hinv.2.2
  · intro typesFound typeDefinitionPaths acc acc1 item hmem hstep
    rcases checkTypesStep_some _ _ acc acc1 item hstep with h | ⟨hnew, _⟩
    · exact h
    · exact absurd hmem hnew

/-! ### The lookup of the defining path -/

/-- `relationalCohesion` completes: no call of `checkTypes` throws. -/
theorem relationalCohesion_isSome (db : RelationalTables) (moduleList : Option (List String))
    (inputPaths : List String) (store : List CppFileMetrics) :
    (relationalCohesion db moduleList inputPaths store).isSome = true := by
  have htotal : ∀ p ∈ modulePaths db moduleList inputPaths,
      (relationalCohesionModule db (moduleIds db (modulePaths db moduleList inputPaths))
        p).isSome = true := by
    intro p _
    unfold relationalCohesionModule
    rw [Option.isSome_map']
    exact moduleRelations_isSome db p
  obtain ⟨recs, h1, _, _⟩ := foldlM_persist
    (relationalCohesionModule db (moduleIds db (modulePaths db moduleList inputPaths)))
    (modulePaths db moduleList inputPaths) htotal store
  unfold relationalCohesion
  simp only
  rw [h1]
  rfl

/-- Claim C18. When `checkTypes` is called from `relationalCohesion`, the lookup
`typeDefinitionPaths.at(item.typeHash)` never fails: every type hash in
`typesFound` is a key of `typeDefinitionPaths`; a step on an occurrence whose
type hash is not in `typesFound` returns without the lookup, whatever the map
holds; and so every scan of a module, the four scans together and
`relationalCohesion` as a whole complete. -/
theorem typeDefinitionPaths_at_never_fails (db : RelationalTables) (path : String) :
    (∀ k ∈ typesFoundOf db path, k ∈ (typeDefinitionPathsOf db path).map Prod.fst) ∧
    (∀ (typesFound : List Nat) (typeDefinitionPaths : List (Nat × String))
        (acc : List (String × Nat) × Nat) (item : TypeUsage),
      item.typeHash ∉ typesFound →
      checkTypesStep typesFound typeDefinitionPaths acc item = some acc) ∧
    (∀ (table : List TypeUsage) (acc : List (String × Nat) × Nat),
      (checkTypes db.like table path (typesFoundOf db path) (typeDefinitionPathsOf db path)
        acc).isSome = true) ∧
    (moduleRelations db path).isSome = true ∧
    ∀ (moduleList : Option (List String)) (inputPaths : List String)
        (store : List CppFileMetrics),
      (relationalCohesion db moduleList inputPaths store).isSome = true := by
  refine ⟨?_, ?_, ?_, moduleRelations_isSome db path, relationalCohesion_isSome db⟩
  · intro k hk
    exact (mapFind_isSome _ k).mp (typesFound_has_definitionPath db path k hk)
  · intro typesFound typeDefinitionPaths acc item hnot
    unfold checkTypesStep
    rw [if_neg hnot]
  · intro table acc
    unfold checkTypes
    exact foldlM_isSome _
      (checkTypesStep_isSome (typesFoundOf db path) (typeDefinitionPathsOf db path)
        (typesFound_has_definitionPath db path)) _ acc

/-! ### One record per subject and kind -/

/-- A test on the rows that pass a first test. -/
theorem any_and_eq_any_filter {α : Type} (p q : α → Bool) (l : List α) :
    l.any (fun a => p a && q a) = (l.filter p).any q := by
  induction l with
  | nil => rfl
  | cons a t ih =>
    by_cases hp : p a = true
    · rw [List.filter_cons_of_pos hp, List.any_cons, List.any_cons, ih, hp, Bool.true_and]
    · rw [List.filter_cons_of_neg hp, List.any_cons, ih]
      have hf : p a = false := by simpa using hp
      rw [hf, Bool.false_and, Bool.false_or]

/-- When the entity `query_one` completes, the entity it returns carries a tag
exactly when some entity of the AST node carries it. -/
theorem hasTag_of_queryOne (entities : List CppEntity) (id : Nat) (tag : Tag)
    (entity : Option CppEntity)
    (h : queryOne entities (fun e => decide (e.astNodeId = id)) = some entity) :
    hasTag entity tag =
      entities.any (fun e => decide (e.astNodeId = id) && decide (tag ∈ e.tags)) := by
  rw [any_and_eq_any_filter]
  unfold queryOne at h
  split at h
  · rename_i hf
    rw [hf, ← Option.some.inj h]
    rfl
  · rename_i a hf
    rw [hf, ← Option.some.inj h]
    simp [hasTag]
  · exact absurd h (by simp)

/-- What a step of the type loop does when it completes: nothing, or an
assignment for a type definition that is rooted under an input path and is not
a template instantiation. -/
theorem typeStep_some (db : McCabeTables) (inputPaths : List String)
    (mcValues m1 : List (Nat × Nat)) (type : CppAstNode)
    (h : typeStep db inputPaths mcValues type = some m1) :
    m1 = mcValues ∨
    (eligibleType db inputPaths type = true ∧
      ∃ value : Nat, m1 = orderedAssign mcValues type.id value) := by
  unfold typeStep at h
  unfold eligibleType
  cases hfile : db.files.find? (fun f => decide (f.id = type.file)) with
  | none => rw [hfile] at h; exact Or.inl (Option.some.inj h).symm
  | some typeFile =>
    rw [hfile] at h
    simp only at h
    by_cases hroot : db.isRootedUnderAnyOf inputPaths typeFile.path = true
    · simp only [hroot, Bool.not_true, Bool.false_eq_true, if_false] at h
      cases hq : queryOne db.entities (fun e => decide (e.astNodeId = type.id)) with
      | none => rw [hq] at h; exact absurd h (by simp)
      | some typeEntity =>
        rw [hq] at h
        simp only [Option.some_bind] at h
        have htag := hasTag_of_queryOne db.entities type.id Tag.TemplateInstantiation
          typeEntity hq
        by_cases ht : hasTag typeEntity Tag.TemplateInstantiation = true
        · rw [if_pos ht] at h
          exact Or.inl (Option.some.inj h).symm
        · rw [if_neg ht] at h
          cases hloop : (typeMethods db type).foldlM (methodStep db) 0 with
          | none => rw [hloop] at h; exact absurd h (by simp)
          | some value =>
            rw [hloop] at h
            right
            refine ⟨?_, value, (Option.some.inj h).symm⟩
            rw [← htag]
            simp [hroot, ht]
    · simp only [hroot, Bool.not_false, if_true] at h
      exact Or.inl (Option.some.inj h).symm

/-- When the type loop completes, the map is in ascending key order and its new
keys are the AST node ids of eligible type definitions of the loop. -/
theorem typeLoop_keys (db : McCabeTables) (inputPaths : List String) (l : List CppAstNode) :
    ∀ m m1 : List (Nat × Nat), l.foldlM (typeStep db inputPaths) m = some m1 →
      (m.map Prod.fst).Pairwise (fun a b => a < b) →
      (m1.map Prod.fst).Pairwise (fun a b => a < b) ∧
      ∀ k ∈ m1.map Prod.fst,
        k ∈ m.map Prod.fst ∨ ∃ t ∈ l, eligibleType db inputPaths t = true ∧ t.id = k := by
  induction l with
  | nil =>
    intro m m1 h hm
    have : m = m1 := by simpa using h
    subst this
    exact ⟨hm, fun k hk => Or.inl hk⟩
  | cons t rest ih =>
    intro m m1 h hm
    rw [List.foldlM_cons] at h
    cases hstep : typeStep db inputPaths m t with
    | none => rw [hstep] at h; exact absurd h (by simp)
    | some m2 =>
      rw [hstep] at h
      rcases typeStep_some db inputPaths m m2 t hstep with rfl | ⟨hel, value, rfl⟩
      · obtain ⟨h1, h2⟩ := ih m2 m1 h hm
        refine ⟨h1, fun k hk => ?_⟩
        rcases h2 k hk with h3 | ⟨t1, ht1, he1, hid1⟩
        · exact Or.inl h3
        · exact Or.inr ⟨t1, List.mem_cons_of_mem t ht1, he1, hid1⟩
      · obtain ⟨h1, h2⟩ := ih _ m1 h (orderedAssign_sorted m t.id value hm)
        refine ⟨h1, fun k hk => ?_⟩
        rcases h2 k hk with h3 | ⟨t1, ht1, he1, hid1⟩
        · rcases (keys_orderedAssign m t.id value k).mp h3 with h4 | h4
          · exact Or.inr ⟨t, List.mem_cons_self t rest, hel, h4.symm⟩
          · exact Or.inl h4
        · exact Or.inr ⟨t1, List.mem_cons_of_mem t ht1, he1, hid1⟩

/-- The keys of the store after a transaction that persists one record per
element, when the key of the record of an element is known. -/
theorem foldlM_persist_keys {α β κ : Type} (f : α → Option β) (key : β → κ) (k : α → κ)
    (l : List α) (hk : ∀ a ∈ l, ∀ r, f a = some r → key r = k a) :
    ∀ store store1 : List β,
      l.foldlM (fun st a => (f a).map fun r => st ++ [r]) store = some store1 →
      store1.map key = store.map key ++ l.map k := by
  induction l with
  | nil =>
    intro store store1 h
    have : store = store1 := by simpa using h
    simp [this]
  | cons a t ih =>
    intro store store1 h
    rw [List.foldlM_cons] at h
    cases hf : f a with
    | none => rw [hf] at h; exact absurd h (by simp)
    | some r =>
      rw [hf] at h
      simp only [Option.map_some', Option.some_bind, Option.bind_eq_bind] at h
      rw [ih (fun x hx => hk x (List.mem_cons_of_mem a hx)) _ store1 h]
      simp [hk a (List.mem_cons_self a t) r hf]

/-- Claim C12 fails on the code: a store with one record per subject and kind
that already holds the `MCCABE_TYPE` record of a type has two of them after
`typeMcCabe`, and a store that already holds the `RELATIONAL_COHESION` record
of a module has two of them after `relationalCohesion`. -/
theorem metricPasses_duplicate_records :
    uniqueAstRecords recountTables.astNodeMetrics = true ∧
    typeMcCabe recountTables ["/src"] =
      some [⟨1, AstMetricType.MCCABE_TYPE, Dbl.fin 0⟩,
        ⟨1, AstMetricType.MCCABE_TYPE, Dbl.ofNat 0⟩] ∧
    (typeMcCabe recountTables ["/src"]).all uniqueAstRecords = false ∧
    uniqueFileRecords [⟨5, FileMetricType.RELATIONAL_COHESION, Dbl.fin 1⟩] = true ∧
    (relationalCohesion threeTypesTwoRelations none ["/m"]
      [⟨5, FileMetricType.RELATIONAL_COHESION, Dbl.fin 1⟩]).all uniqueFileRecords = false :=
  ⟨by decide, by decide, by decide, by decide, by decide⟩

/-- Claim C12, amended. `typeMcCabe` and `relationalCohesion` keep the store at
one record per subject and kind when it holds no record of the kind they write
on a subject they write: for a store of entity-level records with no
`MCCABE_TYPE` record on a type definition that is rooted under an input path
and is not a template instantiation, every store `typeMcCabe` returns has at
most one record per (AST node id, kind); for a store of file-level records
with no `RELATIONAL_COHESION` record on the file id of a module, the module
file ids being pairwise distinct, `relationalCohesion` returns a store with at
most one record per (file id, kind). -/
theorem metricPasses_preserve_unique (db : McCabeTables) (inputPaths : List String)
    (rdb : RelationalTables) (moduleList : Option (List String))
    (store : List CppFileMetrics)
    (hast : uniqueAstRecords db.astNodeMetrics = true)
    (hnew : ∀ r ∈ db.astNodeMetrics, r.type = AstMetricType.MCCABE_TYPE →
      ∀ t ∈ typeDefinitions db, eligibleType db inputPaths t = true → r.astNodeId ≠ t.id)
    (hfile : uniqueFileRecords store = true)
    (hids : (moduleFileIds rdb moduleList inputPaths).Nodup)
    (hfresh : ∀ r ∈ store, r.type = FileMetricType.RELATIONAL_COHESION →
      r.file ∉ moduleFileIds rdb moduleList inputPaths) :
    (∀ store1 : List CppAstNodeMetrics,
      typeMcCabe db inputPaths = some store1 → uniqueAstRecords store1 = true) ∧
    ∃ store1 : List CppFileMetrics,
      relationalCohesion rdb moduleList inputPaths store = some store1 ∧
      uniqueFileRecords store1 = true := by
  constructor
  · intro store1 h
    unfold typeMcCabe at h
    cases hloop : (typeDefinitions db).foldlM (typeStep db inputPaths) [] with
    | none => rw [hloop] at h; exact absurd h (by simp)
    | some m1 =>
      rw [hloop] at h
      simp only [Option.map_some', Option.some.injEq] at h
      rw [foldl_persist_one] at h
      obtain ⟨hsorted, hkeys⟩ := typeLoop_keys db inputPaths _ [] m1 hloop (by simp)
      have hnd : (m1.map Prod.fst).Nodup :=
        List.Pairwise.imp (fun hab => Nat.ne_of_lt hab) hsorted
      unfold uniqueAstRecords at hast ⊢
      rw [decide_eq_true_eq] at hast ⊢
      rw [← h, List.map_append, List.map_map]
      refine List.nodup_append.mpr ⟨hast, ?_, ?_⟩
      · have hinj : Function.Injective (fun k : Nat => (k, AstMetricType.MCCABE_TYPE)) := by
          intro a b hab
          exact (Prod.mk.inj hab).1
        have := List.Nodup.map hinj hnd
        rw [List.map_map] at this
        exact this
      · intro x hx1 hx2
        obtain ⟨r, hr, hrx⟩ := List.mem_map.mp hx1
        obtain ⟨kv, hkv, hkx⟩ := List.mem_map.mp hx2
        simp only [Function.comp_apply] at hkx
        rw [← hrx] at hkx
        have hid : kv.1 = r.astNodeId := (Prod.mk.inj hkx).1
        have hty : r.type = AstMetricType.MCCABE_TYPE := (Prod.mk.inj hkx).2.symm
        rcases hkeys kv.1 (List.mem_map.mpr ⟨kv, hkv, rfl⟩) with hnil | ⟨t, ht, hel, htid⟩
        · simp at hnil
        · exact hnew r hr hty t ht hel (by rw [← hid, htid])
  · obtain ⟨store1, hs1⟩ :=
      Option.isSome_iff_exists.mp (relationalCohesion_isSome rdb moduleList inputPaths store)
    refine ⟨store1, hs1, ?_⟩
    unfold relationalCohesion at hs1
    simp only at hs1
    have hkeys := foldlM_persist_keys
      (relationalCohesionModule rdb (moduleIds rdb (modulePaths rdb moduleList inputPaths)))
      (fun r : CppFileMetrics => (r.file, r.type))
      (fun path => ((mapFind (moduleIds rdb (modulePaths rdb moduleList inputPaths))
        path).getD 0, FileMetricType.RELATIONAL_COHESION))
      (modulePaths rdb moduleList inputPaths)
      (by
        intro path _ r hr
        unfold relationalCohesionModule at hr
        cases hm : moduleRelations rdb path with
        | none => rw [hm] at hr; exact absurd hr (by simp)
        | some acc =>
          rw [hm] at hr
          simp only [Option.map_some', Option.some.injEq] at hr
          rw [← hr])
      store store1 hs1
    unfold uniqueFileRecords at hfile ⊢
    rw [decide_eq_true_eq] at hfile ⊢
    rw [hkeys]
    refine List.nodup_append.mpr ⟨hfile, ?_, ?_⟩
    · have hinj : Function.Injective
          (fun k : Nat => (k, FileMetricType.RELATIONAL_COHESION)) := by
        intro a b hab
        exact (Prod.mk.inj hab).1
      have := List.Nodup.map hinj hids
      unfold moduleFileIds at this
      rw [List.map_map] at this
      exact this
    · intro x hx1 hx2
      obtain ⟨r, hr, hrx⟩ := List.mem_map.mp hx1
      obtain ⟨path, hpath, hpx⟩ := List.mem_map.mp hx2
      rw [← hrx] at hpx
      have hid := (Prod.mk.inj hpx).1
      have hty := (Prod.mk.inj hpx).2
      apply hfresh r hr hty.symm
      rw [← hid]
      unfold moduleFileIds
      exact List.mem_map.mpr ⟨path, hpath, rfl⟩

/-- In a well-formed store where the sum of every eligible type fits an
`unsigned int`, `typeMcCabe` completes. -/
theorem typeMcCabe_isSome (db : McCabeTables) (inputPaths : List String)
    (hwf : db.wellFormed)
    (hrange : ∀ t ∈ typeDefinitions db, eligibleType db inputPaths t = true →
      ∃ n : Nat, n < 2 ^ 32 ∧ typeMcCabeSum db t = Dbl.ofNat n) :
    (typeMcCabe db inputPaths).isSome = true := by
  have hnd : ((typeDefinitions db).map (fun n => n.id)).Nodup := by
    unfold typeDefinitions
    exact List.Nodup.sublist (List.Sublist.map _ (List.filter_sublist _)) hwf.1
  obtain ⟨m1, h1, _, _⟩ :=
    typeLoop_entries db hwf inputPaths (typeDefinitions db) hnd hrange [] (by simp)
  unfold typeMcCabe
  rw [h1]
  rfl

/-- Witness of `metricPasses_preserve_unique`: the sample store, which holds no
`MCCABE_TYPE` record, and an empty store of file-level records. -/
theorem metricPasses_preserve_unique_witness :
    uniqueAstRecords sampleMcCabeTables.astNodeMetrics = true ∧
    uniqueFileRecords [] = true ∧
    (moduleFileIds threeTypesTwoRelations (some ["/m"]) ["/src"]).Nodup ∧
    (typeMcCabe sampleMcCabeTables ["/src"]).isSome = true ∧
    (∀ store1 : List CppAstNodeMetrics,
      typeMcCabe sampleMcCabeTables ["/src"] = some store1 →
      uniqueAstRecords store1 = true) ∧
    ∃ store1 : List CppFileMetrics,
      relationalCohesion threeTypesTwoRelations (some ["/m"]) ["/src"] [] = some store1 ∧
      uniqueFileRecords store1 = true :=
  ⟨by decide, by decide, by decide,
    typeMcCabe_isSome sampleMcCabeTables ["/src"] sampleMcCabeTables_wellFormed
      sampleMcCabeTables_range,
    metricPasses_preserve_unique sampleMcCabeTables ["/src"] threeTypesTwoRelations
      (some ["/m"]) [] (by decide) (by decide) (by decide) (by decide) (by decide)⟩

end CppMetrics
